import Mathlib

/-!
Verification of the chat-client core: the streaming transport decoder
(src/lib/chat/streaming.ts), the message aggregation updates
(ChatPanel.sendMessage), the attachment optimizer
(src/lib/chat/attachments.ts) and the request mapper (src/lib/chat/api.ts).

Strings are modelled as `List Char`.  JavaScript's `String.prototype.split`
with a non-empty separator takes leftmost, non-overlapping matches; for the
two-character separator "\n\n" this is implemented below as a left fold
(`scanStep`) that emits a segment each time the two most recent characters
are both newlines.
-/

/-- The characters of a string literal, the working representation here. -/
def charsOf (s : String) : List Char := s.toList

/-- One step of the leftmost scan for the frame delimiter "\n\n": the state is
(segments already split off, current partial segment).  When the incoming
character is a newline and the partial segment ends with one, the pair is the
delimiter: the partial segment (without its trailing newline) is emitted. -/
def scanStep (st : List (List Char) × List Char) (c : Char) :
    List (List Char) × List Char :=
  if c = '\n' ∧ st.2.getLast? = some '\n' then (st.1 ++ [st.2.dropLast], [])
  else (st.1, st.2 ++ [c])

/-- Scan a whole buffer from the empty state. -/
def scanBuf (buffer : List Char) : List (List Char) × List Char :=
  buffer.foldl scanStep ([], [])

/-- Model of `buffer.split("\n\n")`: the emitted segments followed by the
final partial segment (JavaScript's split always returns at least one
element, the text after the last delimiter). -/
def splitOnNN (buffer : List Char) : List (List Char) :=
  (scanBuf buffer).1 ++ [(scanBuf buffer).2]

/-- Whether a list starts with two newlines. -/
def startsNN : List Char → Bool
  | a :: b :: _ => a == '\n' && b == '\n'
  | _ => false

/-- Model of `buffer.endsWith("\n\n")`. -/
def endsWithNN (buffer : List Char) : Bool :=
  startsNN buffer.reverse

example : splitOnNN (charsOf "a\n\nb") = [charsOf "a", charsOf "b"] := by decide
example : splitOnNN (charsOf "a\n\n\nb") = [charsOf "a", charsOf "\nb"] := by decide
example : splitOnNN (charsOf "\n\n\n") = [[], charsOf "\n"] := by decide
example : splitOnNN [] = [[]] := by decide
example : endsWithNN (charsOf "a\n\n\n") = true := by decide
example : endsWithNN (charsOf "a\nb") = false := by decide

/-- Model of `segment.split("\n")` (single-character separator). -/
def linesOf : List Char → List (List Char)
  | [] => [[]]
  | c :: rest =>
    if c = '\n' then [] :: linesOf rest
    else
      match linesOf rest with
      | [] => [[c]]
      | l :: ls => (c :: l) :: ls

/-- Model of `dataUrl.split(",")`. -/
def splitOnComma : List Char → List (List Char)
  | [] => [[]]
  | c :: rest =>
    if c = ',' then [] :: splitOnComma rest
    else
      match splitOnComma rest with
      | [] => [[c]]
      | l :: ls => (c :: l) :: ls

/-- The whitespace characters removed by JavaScript's `trim` that can occur in
this protocol (ASCII whitespace; the exotic Unicode space classes are not
modelled). -/
def isJsWs (c : Char) : Bool :=
  c = ' ' ∨ c = '\t' ∨ c = '\n' ∨ c = '\r' ∨ c = '\x0b' ∨ c = '\x0c'

/-- Model of `s.trim()`. -/
def trimChars (s : List Char) : List Char :=
  ((s.dropWhile isJsWs).reverse.dropWhile isJsWs).reverse

/-- Model of `s.replace(/\s+$/g, "")` (trim trailing whitespace only),
the body of `formatAssistantMessage`. -/
def trimEndChars (s : List Char) : List Char :=
  (s.reverse.dropWhile isJsWs).reverse

example : trimChars (charsOf "  [DONE] \n") = charsOf "[DONE]" := by decide
example : trimEndChars (charsOf " a \n") = charsOf " a" := by decide

/-!
A JSON-like value, the result of `JSON.parse` on a frame payload.  Arrays and
objects are their own mutual inductives (rather than nested `List`s) so that
the recursive extraction functions below are structural and kernel-reducible.
An object keeps its bindings in source order; duplicate keys are resolved
last-wins by the lookup, as in JavaScript.  Numbers are modelled as exact
rationals and `\uXXXX` escapes as the corresponding scalar value.
-/

mutual

inductive JsonValue where
  | null : JsonValue
  | bool (b : Bool) : JsonValue
  | num (q : ℚ) : JsonValue
  | str (s : List Char) : JsonValue
  | arr (elems : JsonArray) : JsonValue
  | obj (fields : JsonObject) : JsonValue

inductive JsonArray where
  | nil : JsonArray
  | cons (hd : JsonValue) (tl : JsonArray) : JsonArray

inductive JsonObject where
  | nil : JsonObject
  | cons (key : List Char) (val : JsonValue) (tl : JsonObject) : JsonObject

end

/-- The value of `typeof v === "string" ? v : nothing` on a possibly-absent
field: the string when the field holds one. -/
def asStr : Option JsonValue → Option (List Char)
  | some (.str s) => some s
  | _ => none

/-- Property lookup on an object: the value of the LAST binding of `key`
(JavaScript objects built by `JSON.parse` keep the last duplicate). -/
def jGet : JsonObject → List Char → Option JsonValue
  | .nil, _ => none
  | .cons k v rest, key =>
    match jGet rest key with
    | some w => some w
    | none => if k = key then some v else none

mutual

/-- `extractTextFromContent` from src/lib/chat/streaming.ts: a string is
itself; an array concatenates the extraction of its entries; an object
answers its `text` field when that is a string, otherwise recurses into its
`content` field when present; everything else gives the empty string. -/
def extractTextFromContent : JsonValue → List Char
  | .str s => s
  | .arr l => textFromArray l
  | .obj fields =>
    match asStr (jGet fields (charsOf "text")) with
    | some s => s
    | none => textFromContentField fields
  | _ => []

/-- `source.map(extractTextFromContent).join("")` over an array. -/
def textFromArray : JsonArray → List Char
  | .nil => []
  | .cons v rest => extractTextFromContent v ++ textFromArray rest

/-- The recursion into `record.content` (the last `content` binding when one
exists, the empty string otherwise — the same value `undefined` produces). -/
def textFromContentField : JsonObject → List Char
  | .nil => []
  | .cons k v rest =>
    if (jGet rest (charsOf "content")).isSome then textFromContentField rest
    else if k = charsOf "content" then extractTextFromContent v
    else textFromContentField rest

end

mutual

/-- `extractReasoningText` from src/lib/chat/streaming.ts: like the content
extraction but an object is probed in priority order `text` (a string),
`summary` (a string, suffixed with a blank line), `data` (a string), then
recursion into `content`. -/
def extractReasoningText : JsonValue → List Char
  | .str s => s
  | .arr l => reasoningFromArray l
  | .obj fields =>
    match asStr (jGet fields (charsOf "text")) with
    | some s => s
    | none =>
      match asStr (jGet fields (charsOf "summary")) with
      | some s => s ++ charsOf "\n\n"
      | none =>
        match asStr (jGet fields (charsOf "data")) with
        | some s => s
        | none => reasoningFromContentField fields
  | _ => []

/-- `source.map(extractReasoningText).join("")` over an array. -/
def reasoningFromArray : JsonArray → List Char
  | .nil => []
  | .cons v rest => extractReasoningText v ++ reasoningFromArray rest

/-- The recursion into `record.content` for the reasoning channel. -/
def reasoningFromContentField : JsonObject → List Char
  | .nil => []
  | .cons k v rest =>
    if (jGet rest (charsOf "content")).isSome then reasoningFromContentField rest
    else if k = charsOf "content" then extractReasoningText v
    else reasoningFromContentField rest

end

example :
    extractReasoningText
      (.obj (.cons (charsOf "summary") (.str (charsOf "b")) .nil)) =
      charsOf "b\n\n" := by decide

/-- JSON whitespace (the four characters the JSON grammar allows). -/
def skipJsonWs (s : List Char) : List Char :=
  s.dropWhile (fun c => c = ' ' ∨ c = '\t' ∨ c = '\n' ∨ c = '\r')

/-- The value of a hexadecimal digit. -/
def hexVal (c : Char) : Option ℕ :=
  if '0' ≤ c ∧ c ≤ '9' then some (c.toNat - 48)
  else if 'a' ≤ c ∧ c ≤ 'f' then some (c.toNat - 87)
  else if 'A' ≤ c ∧ c ≤ 'F' then some (c.toNat - 55)
  else none

/-- The body of a JSON string after its opening quote: characters and escape
sequences up to the closing quote.  Raw control characters are rejected as in
the JSON grammar.  A `\uXXXX` escape becomes the character with that code
(surrogate pairing is not modelled). -/
def escChar (e : Char) : Option Char :=
  if e = '"' then some '"'
  else if e = '\\' then some '\\'
  else if e = '/' then some '/'
  else if e = 'b' then some '\x08'
  else if e = 'f' then some '\x0c'
  else if e = 'n' then some '\n'
  else if e = 'r' then some '\r'
  else if e = 't' then some '\t'
  else none

/-- The body of a JSON string after its opening quote (second half of the
doc above): the `\u` arm is matched first, other escapes go through
`escChar`. -/
def pStringBody : List Char → List Char → Option (List Char × List Char)
  | '"' :: rest, acc => some (acc.reverse, rest)
  | '\\' :: 'u' :: h1 :: h2 :: h3 :: h4 :: rest, acc =>
    match hexVal h1, hexVal h2, hexVal h3, hexVal h4 with
    | some a, some b, some c, some d =>
      pStringBody rest (Char.ofNat (((a * 16 + b) * 16 + c) * 16 + d) :: acc)
    | _, _, _, _ => none
  | '\\' :: e :: rest, acc =>
    match escChar e with
    | some c => pStringBody rest (c :: acc)
    | none => none
  | c :: rest, acc =>
    if c.toNat ≥ 32 then pStringBody rest (c :: acc) else none
  | [], _ => none

/-- Leading decimal digits of the input and what follows them. -/
def takeDigits (s : List Char) : List Char × List Char :=
  s.span (fun c => '0' ≤ c ∧ c ≤ '9')

/-- The natural number written by a digit string. -/
def natOfDigits (ds : List Char) : ℕ :=
  ds.foldl (fun a c => a * 10 + (c.toNat - 48)) 0

/-- The optional exponent part of a JSON number, applied to mantissa `m`. -/
def pExponentPart (m : ℚ) (r : List Char) : Option (ℚ × List Char) :=
  match r with
  | 'e' :: r1 | 'E' :: r1 =>
    let (esign, r2) : ℤ × List Char :=
      match r1 with
      | '+' :: t => (1, t)
      | '-' :: t => (-1, t)
      | _ => (1, r1)
    match takeDigits r2 with
    | ([], _) => none
    | (es, r3) => some (m * (10 : ℚ) ^ (esign * (natOfDigits es : ℤ)), r3)
  | _ => some (m, r)

/-- A JSON number: `-? (0 | [1-9][0-9]*) (. [0-9]+)? ([eE][+-]?[0-9]+)?`,
modelled as an exact rational. -/
def pNumber (s : List Char) : Option (ℚ × List Char) :=
  let signedInput : Bool × List Char :=
    match s with
    | '-' :: r => (true, r)
    | _ => (false, s)
  match takeDigits signedInput.2 with
  | ([], _) => none
  | (d :: ds, r1) =>
    if d = '0' ∧ ds ≠ [] then none
    else
      let ip : ℚ := (natOfDigits (d :: ds) : ℚ)
      let withFrac : Option (ℚ × List Char) :=
        match r1 with
        | '.' :: rf =>
          match takeDigits rf with
          | ([], _) => none
          | (fs, r2) =>
            pExponentPart (ip + (natOfDigits fs : ℚ) / (10 : ℚ) ^ fs.length) r2
        | _ => pExponentPart ip r1
      match withFrac with
      | none => none
      | some (m, r) => some (if signedInput.1 then -m else m, r)

mutual

/-- A JSON value with leading whitespace, fuel-bounded recursive descent. -/
def pValue : ℕ → List Char → Option (JsonValue × List Char)
  | 0, _ => none
  | fuel + 1, input =>
    match skipJsonWs input with
    | 'n' :: 'u' :: 'l' :: 'l' :: rest => some (.null, rest)
    | 't' :: 'r' :: 'u' :: 'e' :: rest => some (.bool true, rest)
    | 'f' :: 'a' :: 'l' :: 's' :: 'e' :: rest => some (.bool false, rest)
    | '"' :: rest =>
      match pStringBody rest [] with
      | some (s, r) => some (.str s, r)
      | none => none
    | '[' :: rest =>
      match skipJsonWs rest with
      | ']' :: r => some (.arr .nil, r)
      | _ =>
        match pArrayItems fuel rest with
        | some (l, r) => some (.arr l, r)
        | none => none
    | '{' :: rest =>
      match skipJsonWs rest with
      | '}' :: r => some (.obj .nil, r)
      | _ =>
        match pObjectFields fuel rest with
        | some (fs, r) => some (.obj fs, r)
        | none => none
    | other =>
      match pNumber other with
      | some (q, r) => some (.num q, r)
      | none => none

/-- One or more comma-separated array items up to the closing bracket. -/
def pArrayItems : ℕ → List Char → Option (JsonArray × List Char)
  | 0, _ => none
  | fuel + 1, input =>
    match pValue fuel input with
    | none => none
    | some (v, rest) =>
      match skipJsonWs rest with
      | ',' :: r2 =>
        match pArrayItems fuel r2 with
        | some (tl, r3) => some (.cons v tl, r3)
        | none => none
      | ']' :: r2 => some (.cons v .nil, r2)
      | _ => none

/-- One or more `"key": value` members up to the closing brace. -/
def pObjectFields : ℕ → List Char → Option (JsonObject × List Char)
  | 0, _ => none
  | fuel + 1, input =>
    match skipJsonWs input with
    | '"' :: rest =>
      match pStringBody rest [] with
      | none => none
      | some (k, r1) =>
        match skipJsonWs r1 with
        | ':' :: r2 =>
          match pValue fuel r2 with
          | none => none
          | some (v, r3) =>
            match skipJsonWs r3 with
            | ',' :: r4 =>
              match pObjectFields fuel r4 with
              | some (tl, r5) => some (.cons k v tl, r5)
              | none => none
            | '}' :: r4 => some (.cons k v .nil, r4)
            | _ => none
        | _ => none
    | _ => none

end

deriving instance DecidableEq for JsonValue

/-- Model of `JSON.parse`: a single value, possibly surrounded by whitespace,
consuming the entire payload; anything else fails (the `catch` path). -/
def jsonParse (s : List Char) : Option JsonValue :=
  match pValue (s.length + 1) s with
  | some (v, rest) => if skipJsonWs rest = [] then some v else none
  | none => none

example : jsonParse (charsOf "\x7b") = none := by decide
example : jsonParse (charsOf "") = none := by decide
example : jsonParse (charsOf " null ") = some .null := by decide
example :
    jsonParse (charsOf "\x7b\"a\": [1, \"x\"]\x7d") =
      some (.obj (.cons (charsOf "a")
        (.arr (.cons (.num 1) (.cons (.str (charsOf "x")) .nil))) .nil)) := by
  rfl

/-- The decoded stream events (src/lib/chat/types.ts): a `delta` carries the
channels that were non-empty, `done` is the terminal sentinel, `error` a
parse failure. -/
inductive StreamEvent where
  | delta (content : Option (List Char)) (reasoning : Option (List Char))
  | done
  | error (message : List Char)
deriving DecidableEq

/-- Property access `v.key` (undefined, hence `none`, off objects — the
decoder only reads named properties through optional chaining). -/
def jProp (v : JsonValue) (key : List Char) : Option JsonValue :=
  match v with
  | .obj fields => jGet fields key
  | _ => none

/-- Optional chaining `o?.key`. -/
def jPropO (o : Option JsonValue) (key : List Char) : Option JsonValue :=
  match o with
  | some v => jProp v key
  | none => none

/-- `o?.[0]` with JavaScript semantics: first array element, first character
of a string (as a one-character string), or the "0" property of an object. -/
def jIndex0 (o : Option JsonValue) : Option JsonValue :=
  match o with
  | some (.arr (.cons v _)) => some v
  | some (.str (c :: _)) => some (.str [c])
  | some (.obj fields) => jGet fields (charsOf "0")
  | _ => none

/-- Nullish coalescing `a ?? b`: `b` when `a` is undefined or null. -/
def jCoalesce (a b : Option JsonValue) : Option JsonValue :=
  match a with
  | some .null => b
  | none => b
  | some v => some v

/-- `extractTextFromContent` applied to a possibly-undefined argument. -/
def extractTextO (o : Option JsonValue) : List Char :=
  match o with
  | some v => extractTextFromContent v
  | none => []

/-- `extractReasoningText` applied to a possibly-undefined argument. -/
def extractReasoningO (o : Option JsonValue) : List Char :=
  match o with
  | some v => extractReasoningText v
  | none => []

/-- The `array.filter((chunk, index, array) => array.indexOf(chunk) === index)`
de-duplication: keep the first occurrence of each chunk. -/
def dedupFirst (l : List (List Char)) : List (List Char) :=
  l.foldl (fun acc x => if x ∈ acc then acc else acc ++ [x]) []

/-- The successfully-parsed branch of the frame loop in
`extractEventsFromBuffer`: locate the delta-like root, extract the content
channel and the two reasoning channels, and build a `delta` event when
either channel is non-empty. -/
def deltaOfParsed (parsed : JsonValue) : Option StreamEvent :=
  let choice := jIndex0 (jProp parsed (charsOf "choices"))
  let choiceMessage := jPropO choice (charsOf "message")
  let deltaRoot : JsonValue :=
    (jCoalesce (jPropO choice (charsOf "delta"))
      (jCoalesce (jPropO choice (charsOf "message"))
        (jCoalesce (jProp parsed (charsOf "delta"))
          (jProp parsed (charsOf "message"))))).getD (.obj .nil)
  let contentDelta :=
    extractTextO (jCoalesce (jProp deltaRoot (charsOf "content"))
      (jPropO choiceMessage (charsOf "content")))
  let chunk1 :=
    extractReasoningO (jCoalesce (jProp deltaRoot (charsOf "reasoning"))
      (jPropO choiceMessage (charsOf "reasoning")))
  let chunk2 :=
    extractReasoningO (jCoalesce (jProp deltaRoot (charsOf "reasoning_details"))
      (jPropO choiceMessage (charsOf "reasoning_details")))
  let reasoningChunks := [chunk1, chunk2].filter (fun c => c.length > 0)
  let reasoningDelta :=
    if reasoningChunks = [] then [] else (dedupFirst reasoningChunks).flatten
  if contentDelta ≠ [] ∨ reasoningDelta ≠ [] then
    some (.delta (if contentDelta ≠ [] then some contentDelta else none)
      (if reasoningDelta ≠ [] then some reasoningDelta else none))
  else none

/-- The first line of a segment that starts with the `data:` marker. -/
def dataLineOf (segment : List Char) : Option (List Char) :=
  (linesOf segment).find? (fun l => (charsOf "data:").isPrefixOf l)

/-- The events one complete frame contributes in `extractEventsFromBuffer`:
nothing without a `data:` line or with a blank payload, `done` for the
`[DONE]` sentinel, a `delta` (or nothing) for a parsed payload, and `error`
when parsing fails. -/
def segmentEvent (segment : List Char) : Option StreamEvent :=
  match dataLineOf segment with
  | none => none
  | some dataLine =>
    let payload := trimChars (dataLine.drop 5)
    if payload = [] then none
    else if payload = charsOf "[DONE]" then some .done
    else
      match jsonParse payload with
      | some parsed => deltaOfParsed parsed
      | none => some (.error (charsOf "Failed to parse streaming chunk."))

/-- `extractEventsFromBuffer` from src/lib/chat/streaming.ts: split on the
frame delimiter, hold back the final segment as the remainder unless the
buffer ends with the delimiter, and collect each processed segment's event. -/
def extractEventsFromBuffer (buffer : List Char) :
    List StreamEvent × List Char :=
  let segments := splitOnNN buffer
  let isTerminated := endsWithNN buffer
  let remainder := if isTerminated then [] else (segments.getLast?).getD []
  let work := if isTerminated then segments else segments.dropLast
  (work.filterMap segmentEvent, remainder)

/-- Chunk-by-chunk decoding as `sendMessage` performs it: each call's input
is the previous call's remainder followed by the next chunk, events are
accumulated in order. -/
def decodeChunks (chunks : List (List Char)) : List StreamEvent × List Char :=
  chunks.foldl
    (fun acc c =>
      let r := extractEventsFromBuffer (acc.2 ++ c)
      (acc.1 ++ r.1, r.2))
    ([], [])

example :
    extractEventsFromBuffer
      (charsOf "data: \x7b\"choices\":[\x7b\"delta\":\x7b\"content\":\"Hi\"\x7d\x7d]\x7d\n\ndata: [DONE]\n\n") =
      ([.delta (some (charsOf "Hi")) none, .done], []) := by rfl

example :
    extractEventsFromBuffer (charsOf "data: \x7b\"choices\":[\x7b\"delta\":\x7b\"content\":\"Hi") =
      ([], charsOf "data: \x7b\"choices\":[\x7b\"delta\":\x7b\"content\":\"Hi") := by rfl

example : extractEventsFromBuffer (charsOf ": keep-alive\n\n") = ([], []) := by rfl

example :
    extractEventsFromBuffer (charsOf "data: bad\n\ndata: [DONE]\n\n") =
      ([.error (charsOf "Failed to parse streaming chunk."), .done], []) := by rfl

/-!
The attachment optimizer (src/lib/chat/attachments.ts).  Browser rendering is
abstracted as a `render : width → height → quality → dataUrl` function the
theorems quantify over; arithmetic on quality and scale is exact-rational,
with `Number((x).toFixed(d))` modelled as round-half-up to `d` decimals.
-/

def MAX_BASE64_ATTACHMENT_BYTES : ℕ := 1572864

def MAX_ATTACHMENT_EDGE : ℕ := 1600

def MIN_ATTACHMENT_EDGE : ℕ := 512

def DEFAULT_JPEG_QUALITY : ℚ := 85 / 100

def MIN_JPEG_QUALITY : ℚ := 55 / 100

def DOWNSCALE_STEP : ℚ := 85 / 100

/-- The padding adjustment `estimateBase64Size` reads off the payload's
tail: 2 for a `==` ending, 1 for a lone `=`, else 0. -/
def padOf (base64 : List Char) : ℕ :=
  match base64.reverse with
  | a :: b :: _ => if a = '=' then if b = '=' then 2 else 1 else 0
  | [a] => if a = '=' then 1 else 0
  | [] => 0

/-- `estimateBase64Size` from src/lib/chat/attachments.ts: the byte count a
base64 payload decodes to, computed from its length and padding
(`Math.max(0, ...)` is truncated natural subtraction here). -/
def estimateBase64Size (dataUrl : List Char) : ℕ :=
  let base64 := ((splitOnComma dataUrl).get? 1).getD []
  if base64 = [] then 0 else base64.length * 3 / 4 - padOf base64

/-- `Number((x).toFixed(d))` for non-negative `x`: round half-up at `d`
decimal places. -/
def toFixedRound (digits : ℕ) (x : ℚ) : ℚ :=
  ((Int.floor (x * 10 ^ digits + 1 / 2) : ℤ) : ℚ) / 10 ^ digits

/-- `Math.round` for non-negative arguments, as used on pixel sizes. -/
def jsRound (x : ℚ) : ℕ := (Int.floor (x + 1 / 2)).toNat

/-- The mutable locals of `compressImageFile`'s adjustment loop. -/
structure CompressState where
  quality : ℚ
  scale : ℚ
  width : ℕ
  height : ℕ
  dataUrl : List Char
  size : ℕ
deriving DecidableEq

/-- The loop condition of `compressImageFile`. -/
def loopGuard (minScale : ℚ) (st : CompressState) : Prop :=
  MAX_BASE64_ATTACHMENT_BYTES < st.size ∧
    (MIN_JPEG_QUALITY < st.quality ∨ minScale < st.scale)

instance (minScale : ℚ) (st : CompressState) : Decidable (loopGuard minScale st) := by
  unfold loopGuard
  exact inferInstance

/-- One iteration of the adjustment loop: drop quality by 0.10 (clamped to
its floor) while it is above the floor, otherwise multiply the scale by 0.85
(clamped to the floor scale) and recompute the pixel sizes; then re-render
and re-measure. -/
def adjustStep (render : ℕ → ℕ → ℚ → List Char) (ow oh : ℕ) (minScale : ℚ)
    (st : CompressState) : CompressState :=
  let st1 :=
    if MIN_JPEG_QUALITY < st.quality then
      { st with quality := max MIN_JPEG_QUALITY (toFixedRound 2 (st.quality - 1 / 10)) }
    else if minScale < st.scale then
      let ns := max minScale (toFixedRound 4 (st.scale * DOWNSCALE_STEP))
      { st with
        scale := ns
        width := max (jsRound ((ow : ℚ) * ns)) 1
        height := max (jsRound ((oh : ℚ) * ns)) 1 }
    else st
  let du := render st1.width st1.height st1.quality
  { st1 with dataUrl := du, size := estimateBase64Size du }

/-- The `while` loop, fuel-bounded: `none` means the given fuel was not
enough (for a non-terminating run, no fuel is). -/
def compressLoop (render : ℕ → ℕ → ℚ → List Char) (ow oh : ℕ) (minScale : ℚ) :
    ℕ → CompressState → Option CompressState
  | 0, _ => none
  | fuel + 1, st =>
    if loopGuard minScale st then
      compressLoop render ow oh minScale fuel (adjustStep render ow oh minScale st)
    else some st

/-- The optimizer's result record. -/
structure OptimizedImageAttachment where
  dataUrl : List Char
  size : ℕ
  type : List Char
  name : List Char
deriving DecidableEq

/-- `file.name.replace(/\.[^/.]+$/, "")`: drop a final dot-extension whose
characters contain neither a dot nor a slash. -/
def stripExtension (name : List Char) : List Char :=
  let rev := name.reverse
  let ext := rev.takeWhile (fun c => c ≠ '.' ∧ c ≠ '/')
  match rev.drop ext.length with
  | '.' :: restRev => if ext = [] then name else restRev.reverse
  | _ => name

/-- The output name: the base name (or, when empty, the whole original name)
with a `.jpg` extension. -/
def jpgName (fileName : List Char) : List Char :=
  let baseName := stripExtension fileName
  if baseName.length > 0 then baseName ++ charsOf ".jpg"
  else fileName ++ charsOf ".jpg"

example : stripExtension (charsOf "photo.final.png") = charsOf "photo.final" := by decide
example : jpgName (charsOf ".png") = charsOf ".png.jpg" := by decide
example : jpgName (charsOf "photo") = charsOf "photo.jpg" := by decide

/-- The budget-exhaustion error, naming the file and the 1.5 MB ceiling
(`(MAX_BASE64_ATTACHMENT_BYTES / 1024 / 1024).toFixed(1)` is "1.5"). -/
def compressFailureMessage (fileName : List Char) : List Char :=
  charsOf "We couldn't compress " ++ fileName ++
    charsOf " below 1.5 MB. Try a smaller image."

/-- The unreadable-dimensions error thrown before the loop. -/
def dimensionsErrorMessage : List Char :=
  charsOf "We couldn't read the image dimensions."

/-- `Math.max(originalWidth, originalHeight)` as a rational. -/
def compressMaxEdge (originalWidth originalHeight : ℕ) : ℚ :=
  ((max originalWidth originalHeight : ℕ) : ℚ)

/-- The floor downscale factor (`minScale` in the source). -/
def compressMinScale (originalWidth originalHeight : ℕ) : ℚ :=
  min 1 ((MIN_ATTACHMENT_EDGE : ℚ) / compressMaxEdge originalWidth originalHeight)

/-- The starting downscale factor (`currentScale` in the source), with its
clamp to 1 for a non-finite or non-positive value (in this exact-rational
model only non-positivity can occur, and only vacuously). -/
def compressInitialScale (originalWidth originalHeight : ℕ) : ℚ :=
  let initialScale : ℚ :=
    min 1 ((MAX_ATTACHMENT_EDGE : ℚ) / compressMaxEdge originalWidth originalHeight)
  if initialScale ≤ 0 then 1 else initialScale

/-- The state just before the loop: initial quality and scale, the rounded
pixel sizes, and the first render's measurement. -/
def compressInitState (render : ℕ → ℕ → ℚ → List Char)
    (originalWidth originalHeight : ℕ) : CompressState :=
  let currentScale := compressInitialScale originalWidth originalHeight
  let width := max (jsRound ((originalWidth : ℚ) * currentScale)) 1
  let height := max (jsRound ((originalHeight : ℚ) * currentScale)) 1
  let dataUrl := render width height DEFAULT_JPEG_QUALITY
  ⟨DEFAULT_JPEG_QUALITY, currentScale, width, height, dataUrl,
    estimateBase64Size dataUrl⟩

/-- `compressImageFile` from src/lib/chat/attachments.ts, for an image whose
decoded pixel dimensions are `originalWidth × originalHeight`.  The canvas
context is assumed available (its absence is a browser capability, not a
property of this algorithm).  `none` means the fuel ran out inside the loop. -/
def compressImageFile (render : ℕ → ℕ → ℚ → List Char) (fileName : List Char)
    (originalWidth originalHeight : ℕ) (fuel : ℕ) :
    Option (Except (List Char) OptimizedImageAttachment) :=
  if originalWidth = 0 ∨ originalHeight = 0 then
    some (.error dimensionsErrorMessage)
  else
    match compressLoop render originalWidth originalHeight
      (compressMinScale originalWidth originalHeight) fuel
      (compressInitState render originalWidth originalHeight) with
    | none => none
    | some st =>
      some
        (if MAX_BASE64_ATTACHMENT_BYTES < st.size then
          .error (compressFailureMessage fileName)
        else .ok ⟨st.dataUrl, st.size, charsOf "image/jpeg", jpgName fileName⟩)

/-- The call finishes: some fuel is enough for its loop. -/
def compressTerminates (render : ℕ → ℕ → ℚ → List Char) (fileName : List Char)
    (originalWidth originalHeight : ℕ) : Prop :=
  ∃ fuel r, compressImageFile render fileName originalWidth originalHeight fuel = some r

/-!
The message records and the folds `sendMessage` applies to the placeholder
assistant message (ChatPanel, with `createPlaceholderMessage` and
`formatAssistantMessage` from src/lib/chat/messages.ts).  Timestamps are
milliseconds as naturals.
-/

inductive ChatRole where
  | user
  | assistant
deriving DecidableEq

structure ChatAttachment where
  id : List Char
  name : List Char
  size : ℕ
  type : List Char
  dataUrl : List Char
deriving DecidableEq

structure ChatMessage where
  id : List Char
  role : ChatRole
  content : List Char
  attachments : Option (List ChatAttachment) := none
  reasoning : Option (List Char) := none
  reasoningDurationSeconds : Option ℕ := none
  reasoningStartedAt : Option ℕ := none
  reasoningStoppedAt : Option ℕ := none
  isReasoningStreaming : Option Bool := none
deriving DecidableEq

/-- `formatAssistantMessage`: strip trailing whitespace from the content. -/
def formatAssistantMessage (content : List Char) : List Char :=
  trimEndChars content

/-- `createPlaceholderMessage` (the random id is a parameter here). -/
def createPlaceholderMessage (id : List Char) : ChatMessage :=
  { id := id
    role := .assistant
    content := []
    reasoning := some []
    isReasoningStreaming := some false }

/-- Truthiness of an optional string (`!x` is false exactly here), which on
these fields coincides with `typeof x === "string" && x.length > 0`. -/
def strTruthy (o : Option (List Char)) : Bool :=
  match o with
  | some (_ :: _) => true
  | _ => false

/-- `Math.max(1, Math.round((stoppedAt - startedAt) / 1000))` on millisecond
naturals (for a stop before the start JavaScript yields 1 as well, through a
negative rounded value; truncated subtraction gives the same 1). -/
def reasoningSeconds (startedAt stoppedAt : ℕ) : ℕ :=
  max 1 ((stoppedAt - startedAt + 500) / 1000)

/-- The fold of one `delta` event into the placeholder message (the
`event.type === "delta"` arm of `sendMessage`, including its leading
`if (!content && !reasoning) continue` guard). -/
def foldDeltaEvent (now : ℕ) (content reasoning : Option (List Char))
    (m : ChatMessage) : ChatMessage :=
  if !(strTruthy content || strTruthy reasoning) then m
  else
    let hasContent := strTruthy content
    let hasReasoning := strTruthy reasoning
    let next :=
      { m with
        content := if hasContent then m.content ++ content.getD [] else m.content }
    if hasReasoning then
      { next with
        reasoning := some (m.reasoning.getD [] ++ reasoning.getD [])
        reasoningStartedAt :=
          some
            (match m.reasoningStartedAt with
            | some t => t
            | none => now)
        reasoningStoppedAt := some now
        isReasoningStreaming := some true }
    else if hasContent ∧ m.isReasoningStreaming = some true then
      let withFlag := { next with isReasoningStreaming := some false }
      if withFlag.reasoningDurationSeconds = none ∧ m.reasoningStartedAt ≠ none then
        match m.reasoningStartedAt with
        | some startedAt =>
          let stoppedAt := m.reasoningStoppedAt.getD startedAt
          { withFlag with
            reasoningDurationSeconds := some (reasoningSeconds startedAt stoppedAt) }
        | none => withFlag
      else withFlag
    else next

/-- The finalization applied when the transport reports `done` (the
`reader.read()` loop's `done` branch of `sendMessage`). -/
def finalizeDoneMessage (now : ℕ) (m : ChatMessage) : ChatMessage :=
  let trimmedContent := formatAssistantMessage m.content
  let cleanedReasoning :=
    match m.reasoning with
    | some r => some (trimChars r)
    | none => none
  let stoppedAt :=
    match m.reasoningStoppedAt with
    | some t => some t
    | none =>
      if m.reasoningStartedAt ≠ none ∧ m.isReasoningStreaming = some true then
        some now
      else none
  let duration :=
    match m.reasoningDurationSeconds with
    | some d => some d
    | none =>
      match m.reasoningStartedAt, stoppedAt with
      | some sa, some sp =>
        if sa ≤ sp then some (reasoningSeconds sa sp) else none
      | _, _ => none
  { m with
    content := trimmedContent
    reasoning :=
      match cleanedReasoning with
      | some (c :: cs) => some (c :: cs)
      | _ => none
    reasoningDurationSeconds := duration
    reasoningStartedAt := none
    reasoningStoppedAt := none
    isReasoningStreaming := some false }

/-- The finalization applied by the `catch` arm of `sendMessage` (an `error`
event is thrown and lands there, as does a transport failure). -/
def finalizeErrorMessage (errText : List Char) (m : ChatMessage) : ChatMessage :=
  { m with
    content := charsOf "⚠️ " ++ errText
    reasoning := none
    reasoningDurationSeconds := none
    reasoningStartedAt := none
    reasoningStoppedAt := none
    isReasoningStreaming := some false }

/-!
The request mapper (src/lib/chat/api.ts).
-/

inductive ChatRequestContentPart where
  | text (text : List Char)
  | imageUrl (url : List Char)
deriving DecidableEq

/-- The mapper's result: either a plain string or a list of typed parts. -/
inductive ApiContent where
  | str (s : List Char)
  | parts (l : List ChatRequestContentPart)
deriving DecidableEq

def ATTACHMENT_ONLY_FALLBACK_TEXT : List Char :=
  charsOf "Please analyze the attached image(s) and describe what you see."

/-- `message.attachments?.length` as a truthy value. -/
def attachmentsTruthy (o : Option (List ChatAttachment)) : Bool :=
  match o with
  | some (_ :: _) => true
  | _ => false

/-- `mapMessageToApiContent` from src/lib/chat/api.ts. -/
def mapMessageToApiContent (message : ChatMessage) : ApiContent :=
  let text := message.content
  let trimmedText := trimChars text
  let textParts : List ChatRequestContentPart :=
    if trimmedText.length > 0 then [.text text]
    else if attachmentsTruthy message.attachments then
      [.text ATTACHMENT_ONLY_FALLBACK_TEXT]
    else []
  let parts :=
    textParts ++
      (if attachmentsTruthy message.attachments then
        (message.attachments.getD []).map (fun a => .imageUrl a.dataUrl)
      else [])
  match parts with
  | [] => .str []
  | [.text t] => .str t
  | _ => .parts parts

/-!
Scan lemmas: the delimiter scan is a left fold, so buffers compose; the
emitted-segment prefix is monotone; a remainder never contains a delimiter;
and a buffer ending in the delimiter leaves at most a lone newline pending.
-/

/-- A buffer the scan passes through untouched (no complete frame inside):
every remainder has this property. -/
def curOK (cur : List Char) : Prop := scanBuf cur = ([], cur)

/-- The relation between the full-decode pending text and the chunked-decode
pending text: equal up to one leading newline on either side. -/
def curRel (a b : List Char) : Prop :=
  a = b ∨ a = '\n' :: b ∨ b = '\n' :: a

theorem scanStep_done_prefix (xs : List Char) :
    ∀ d cur, List.foldl scanStep (d, cur) xs =
      (d ++ (List.foldl scanStep ([], cur) xs).1,
        (List.foldl scanStep ([], cur) xs).2) := by
  induction xs with
  | nil => intro d cur; simp
  | cons x xs ih =>
    intro d cur
    simp only [List.foldl_cons]
    by_cases h : x = '\n' ∧ cur.getLast? = some '\n'
    · rw [show scanStep (d, cur) x = (d ++ [cur.dropLast], []) by
        simp [scanStep, h],
        show scanStep ([], cur) x = ([cur.dropLast], []) by simp [scanStep, h],
        ih (d ++ [cur.dropLast]) [], ih [cur.dropLast] []]
      simp
    · rw [show scanStep (d, cur) x = (d, cur ++ [x]) by simp [scanStep, h],
        show scanStep ([], cur) x = ([], cur ++ [x]) by simp [scanStep, h]]
      exact ih d (cur ++ [x])

theorem scanBuf_append (u v : List Char) :
    scanBuf (u ++ v) = List.foldl scanStep (scanBuf u) v := by
  simp [scanBuf, List.foldl_append]

theorem curOK_nil : curOK [] := rfl

theorem curOK_extend {cur : List Char} (h : curOK cur) {x : Char}
    (hx : ¬(x = '\n' ∧ cur.getLast? = some '\n')) : curOK (cur ++ [x]) := by
  unfold curOK at h ⊢
  rw [scanBuf_append, h]
  simp [scanStep, hx]

theorem curOK_scan (xs : List Char) :
    ∀ cur, curOK cur → curOK (List.foldl scanStep ([], cur) xs).2 := by
  induction xs with
  | nil => intro cur h; exact h
  | cons x xs ih =>
    intro cur h
    simp only [List.foldl_cons]
    by_cases hx : x = '\n' ∧ cur.getLast? = some '\n'
    · rw [show scanStep ([], cur) x = ([cur.dropLast], []) by simp [scanStep, hx],
        scanStep_done_prefix]
      exact ih [] curOK_nil
    · rw [show scanStep ([], cur) x = ([], cur ++ [x]) by simp [scanStep, hx]]
      exact ih _ (curOK_extend h hx)

theorem not_curOK_nn : ¬ curOK ['\n', '\n'] := by
  unfold curOK
  decide

theorem scanBuf_of_curOK {r : List Char} (h : curOK r) (c : List Char) :
    scanBuf (r ++ c) = List.foldl scanStep ([], r) c := by
  rw [scanBuf_append, h]

theorem startsNN_iff (l : List Char) :
    startsNN l = true ↔ ∃ t, l = '\n' :: '\n' :: t := by
  match l with
  | [] => simp [startsNN]
  | [a] => simp [startsNN]
  | a :: b :: t =>
    simp only [startsNN, Bool.and_eq_true, beq_iff_eq]
    constructor
    · rintro ⟨rfl, rfl⟩; exact ⟨t, rfl⟩
    · rintro ⟨u, h⟩
      cases h
      exact ⟨rfl, rfl⟩

theorem endsWithNN_iff (p : List Char) :
    endsWithNN p = true ↔ ∃ q, p = q ++ ['\n', '\n'] := by
  unfold endsWithNN
  rw [startsNN_iff]
  constructor
  · rintro ⟨t, ht⟩
    refine ⟨t.reverse, ?_⟩
    have := congrArg List.reverse ht
    simpa using this
  · rintro ⟨q, rfl⟩
    exact ⟨q.reverse, by simp⟩

theorem scanBuf_cur_of_terminated {p : List Char} (h : endsWithNN p = true) :
    (scanBuf p).2 = [] ∨ (scanBuf p).2 = ['\n'] := by
  obtain ⟨q, rfl⟩ := (endsWithNN_iff p).1 h
  rw [scanBuf_append]
  by_cases hq : (scanBuf q).2.getLast? = some '\n'
  · right
    simp only [List.foldl_cons, List.foldl_nil]
    rw [show scanStep (scanBuf q) '\n' = ((scanBuf q).1 ++ [(scanBuf q).2.dropLast], []) by
      simp [scanStep, hq]]
    simp [scanStep]
  · left
    simp only [List.foldl_cons, List.foldl_nil]
    rw [show scanStep (scanBuf q) '\n' = ((scanBuf q).1, (scanBuf q).2 ++ ['\n']) by
      cases h' : scanBuf q with
      | mk a b => simp [scanStep]; intro hb; exact absurd (h' ▸ hb : (scanBuf q).2.getLast? = some '\n') hq]
    simp [scanStep]

theorem segmentEvent_nil : segmentEvent [] = none := rfl

theorem segmentEvent_newline : segmentEvent ['\n'] = none := rfl

theorem dataLineOf_cons_newline (s : List Char) :
    dataLineOf ('\n' :: s) = dataLineOf s := by
  simp only [dataLineOf, linesOf, if_true]
  rw [List.find?_cons_of_neg _ (by decide)]

theorem segmentEvent_cons_newline (s : List Char) :
    segmentEvent ('\n' :: s) = segmentEvent s := by
  unfold segmentEvent
  rw [dataLineOf_cons_newline]

/-- The events of a decode are the scan's emitted segments' events: the
pending text never contributes (when the buffer ends with the delimiter, the
pending text is empty or a lone newline, neither of which holds a frame). -/
theorem events_eq_scan (b : List Char) :
    (extractEventsFromBuffer b).1 = (scanBuf b).1.filterMap segmentEvent := by
  unfold extractEventsFromBuffer splitOnNN
  by_cases h : endsWithNN b = true
  · simp only [h, if_pos]
    rw [List.filterMap_append]
    rcases scanBuf_cur_of_terminated h with h2 | h2 <;>
      simp [h2, segmentEvent_nil, segmentEvent_newline]
  · simp only [h]
    simp

/-- The remainder of a decode is the scan's pending text, or nothing when the
buffer ends with the delimiter. -/
theorem remainder_eq_scan (b : List Char) :
    (extractEventsFromBuffer b).2 =
      if endsWithNN b = true then [] else (scanBuf b).2 := by
  unfold extractEventsFromBuffer splitOnNN
  by_cases h : endsWithNN b = true <;> simp [h]

theorem curRel_symm {a b : List Char} (h : curRel a b) : curRel b a := by
  rcases h with rfl | h | h
  · exact Or.inl rfl
  · exact Or.inr (Or.inr h)
  · exact Or.inr (Or.inl h)

theorem curOK_scanStep (c : List Char) (x : Char) (h : curOK c) :
    curOK (scanStep ([], c) x).2 := by
  by_cases hx : x = '\n' ∧ c.getLast? = some '\n'
  · simp only [scanStep, if_pos hx]
    exact curOK_nil
  · simp only [scanStep, if_neg hx]
    exact curOK_extend h hx

/-- One scan step from pending texts that differ by a leading newline: the
events of anything emitted agree, and the new pending texts again differ by
at most a leading newline. -/
theorem scanStep_sim_aux (x : Char) (cc : List Char) (hf : curOK ('\n' :: cc))
    (hc : curOK cc) :
    (scanStep ([], '\n' :: cc) x).1.filterMap segmentEvent =
      (scanStep ([], cc) x).1.filterMap segmentEvent ∧
    curRel (scanStep ([], '\n' :: cc) x).2 (scanStep ([], cc) x).2 ∧
    curOK (scanStep ([], '\n' :: cc) x).2 ∧ curOK (scanStep ([], cc) x).2 := by
  by_cases hx : x = '\n'
  · subst hx
    cases cc with
    | nil =>
      refine ⟨by decide, Or.inr (Or.inr rfl), curOK_nil, ?_⟩
      unfold curOK
      decide
    | cons d ds =>
      by_cases hw : (d :: ds).getLast? = some '\n'
      · have ef : scanStep ([], '\n' :: d :: ds) '\n' =
            ([('\n' :: d :: ds).dropLast], []) := by
          simp [scanStep, List.getLast?_cons_cons, hw]
        have ec : scanStep ([], d :: ds) '\n' = ([(d :: ds).dropLast], []) := by
          simp [scanStep, hw]
        rw [ef, ec]
        refine ⟨?_, Or.inl rfl, curOK_nil, curOK_nil⟩
        have hdrop : ('\n' :: d :: ds).dropLast = '\n' :: (d :: ds).dropLast := rfl
        simp only [hdrop, List.filterMap, segmentEvent_cons_newline]
      · have hfcond : ¬('\n' = '\n' ∧ ('\n' :: d :: ds).getLast? = some '\n') := by
          rw [List.getLast?_cons_cons]
          exact fun h => hw h.2
        have hccond : ¬('\n' = '\n' ∧ (d :: ds).getLast? = some '\n') :=
          fun h => hw h.2
        have ef : scanStep ([], '\n' :: d :: ds) '\n' =
            ([], '\n' :: d :: ds ++ ['\n']) := by
          simp [scanStep, List.getLast?_cons_cons, hw]
        have ec : scanStep ([], d :: ds) '\n' = ([], d :: ds ++ ['\n']) := by
          simp [scanStep, hw]
        rw [ef, ec]
        have o1 := curOK_extend hf hfcond
        have o2 := curOK_extend hc hccond
        exact ⟨rfl, Or.inr (Or.inl rfl), o1, o2⟩
  · have hfcond : ¬(x = '\n' ∧ ('\n' :: cc).getLast? = some '\n') := fun h => hx h.1
    have hccond : ¬(x = '\n' ∧ cc.getLast? = some '\n') := fun h => hx h.1
    have ef : scanStep ([], '\n' :: cc) x = ([], '\n' :: cc ++ [x]) := by
      simp [scanStep, hx]
    have ec : scanStep ([], cc) x = ([], cc ++ [x]) := by
      simp [scanStep, hx]
    rw [ef, ec]
    have o1 := curOK_extend hf hfcond
    have o2 := curOK_extend hc hccond
    exact ⟨rfl, Or.inr (Or.inl rfl), o1, o2⟩

theorem scanStep_sim (x : Char) (cf cc : List Char) (hrel : curRel cf cc)
    (hf : curOK cf) (hc : curOK cc) :
    (scanStep ([], cf) x).1.filterMap segmentEvent =
      (scanStep ([], cc) x).1.filterMap segmentEvent ∧
    curRel (scanStep ([], cf) x).2 (scanStep ([], cc) x).2 ∧
    curOK (scanStep ([], cf) x).2 ∧ curOK (scanStep ([], cc) x).2 := by
  rcases hrel with rfl | h | h
  · exact ⟨rfl, Or.inl rfl, curOK_scanStep _ _ hf, curOK_scanStep _ _ hc⟩
  · subst h
    exact scanStep_sim_aux x cc hf hc
  · subst h
    obtain ⟨e, r, o1, o2⟩ := scanStep_sim_aux x cf hc hf
    exact ⟨e.symm, curRel_symm r, o2, o1⟩

/-- The scan simulation: from pending texts that differ by at most a leading
newline, scanning the same characters yields segment lists with the same
events and pending texts again differing by at most a leading newline. -/
theorem scan_sim (xs : List Char) :
    ∀ cf cc : List Char, curRel cf cc → curOK cf → curOK cc →
      (List.foldl scanStep ([], cf) xs).1.filterMap segmentEvent =
        (List.foldl scanStep ([], cc) xs).1.filterMap segmentEvent ∧
      curRel (List.foldl scanStep ([], cf) xs).2
        (List.foldl scanStep ([], cc) xs).2 ∧
      curOK (List.foldl scanStep ([], cf) xs).2 ∧
      curOK (List.foldl scanStep ([], cc) xs).2 := by
  induction xs with
  | nil => intro cf cc hrel hof hoc; exact ⟨rfl, hrel, hof, hoc⟩
  | cons x xs ih =>
    intro cf cc hrel hof hoc
    simp only [List.foldl_cons]
    obtain ⟨h1, h2, h3, h4⟩ := scanStep_sim x cf cc hrel hof hoc
    have Ef := scanStep_done_prefix xs (scanStep ([], cf) x).1 (scanStep ([], cf) x).2
    have Ec := scanStep_done_prefix xs (scanStep ([], cc) x).1 (scanStep ([], cc) x).2
    rw [Prod.mk.eta] at Ef Ec
    rw [Ef, Ec]
    obtain ⟨i1, i2, i3, i4⟩ := ih _ _ h2 h3 h4
    refine ⟨?_, i2, i3, i4⟩
    simp only [List.filterMap_append, h1, i1]

theorem curOK_scanBuf (b : List Char) : curOK (scanBuf b).2 :=
  curOK_scan b [] curOK_nil

theorem curOK_remainder (b : List Char) : curOK (extractEventsFromBuffer b).2 := by
  rw [remainder_eq_scan]
  by_cases h : endsWithNN b = true
  · simp only [h, if_true]
    exact curOK_nil
  · simp only [h, if_false]
    exact curOK_scanBuf b

theorem decodeChunks_concat (chunks : List (List Char)) (c : List Char) :
    decodeChunks (chunks ++ [c]) =
      ((decodeChunks chunks).1 ++
          (extractEventsFromBuffer ((decodeChunks chunks).2 ++ c)).1,
        (extractEventsFromBuffer ((decodeChunks chunks).2 ++ c)).2) := by
  unfold decodeChunks
  rw [List.foldl_append]
  simp

/-- The chunked decode tracks the one-shot scan of the concatenation: the
accumulated events match the scan's emitted frames, and the held remainder
matches the scan's pending text up to one leading newline. -/
theorem decodeChunks_invariant (chunks : List (List Char)) :
    (decodeChunks chunks).1 =
      (scanBuf chunks.flatten).1.filterMap segmentEvent ∧
    curRel (scanBuf chunks.flatten).2 (decodeChunks chunks).2 ∧
    curOK (scanBuf chunks.flatten).2 ∧ curOK (decodeChunks chunks).2 := by
  induction chunks using List.reverseRecOn with
  | nil => exact ⟨rfl, Or.inl rfl, curOK_nil, curOK_nil⟩
  | append_singleton chunks c ih =>
    obtain ⟨ihE, ihR, ihOf, ihOc⟩ := ih
    have hflat : (chunks ++ [c]).flatten = chunks.flatten ++ c := by simp
    have hfull : List.foldl scanStep (scanBuf chunks.flatten) c =
        ((scanBuf chunks.flatten).1 ++
            (List.foldl scanStep ([], (scanBuf chunks.flatten).2) c).1,
          (List.foldl scanStep ([], (scanBuf chunks.flatten).2) c).2) := by
      have h := scanStep_done_prefix c (scanBuf chunks.flatten).1
        (scanBuf chunks.flatten).2
      rw [Prod.mk.eta] at h
      exact h
    have hchunk : scanBuf ((decodeChunks chunks).2 ++ c) =
        List.foldl scanStep ([], (decodeChunks chunks).2) c :=
      scanBuf_of_curOK ihOc c
    obtain ⟨sE, sR, sOf, sOc⟩ :=
      scan_sim c (scanBuf chunks.flatten).2 (decodeChunks chunks).2 ihR ihOf ihOc
    rw [decodeChunks_concat, hflat]
    refine ⟨?_, ?_, ?_, ?_⟩
    · rw [scanBuf_append, hfull]
      rw [events_eq_scan, hchunk]
      simp only [List.filterMap_append]
      rw [ihE, sE]
    · rw [scanBuf_append, hfull, remainder_eq_scan, hchunk]
      by_cases ht : endsWithNN ((decodeChunks chunks).2 ++ c) = true
      · simp only [ht, if_true]
        have hcur := scanBuf_cur_of_terminated ht
        rw [hchunk] at hcur
        rcases hcur with h0 | h1
        · rw [h0] at sR
          exact sR
        · rw [h1] at sR
          rcases sR with h | h | h
          · rw [h]
            exact Or.inr (Or.inl rfl)
          · exfalso
            rw [h] at sOf
            exact not_curOK_nn sOf
          · rw [List.cons.injEq] at h
            rw [h.2.symm]
            exact Or.inl rfl
      · simp only [ht, if_false]
        exact sR
    · rw [scanBuf_append, hfull]
      exact sOf
    · exact curOK_remainder _

/-- Appending past a delimiter-terminated prefix decodes independently:
the events of the whole are the prefix's events then the suffix's events. -/
theorem events_append_of_terminated (u v : List Char)
    (hu : endsWithNN u = true) :
    (extractEventsFromBuffer (u ++ v)).1 =
      (extractEventsFromBuffer u).1 ++ (extractEventsFromBuffer v).1 := by
  rw [events_eq_scan, events_eq_scan, events_eq_scan, scanBuf_append]
  have hfull := scanStep_done_prefix v (scanBuf u).1 (scanBuf u).2
  rw [Prod.mk.eta] at hfull
  rw [hfull]
  simp only [List.filterMap_append]
  congr 1
  have hrel : curRel (scanBuf u).2 [] := by
    rcases scanBuf_cur_of_terminated hu with h | h
    · rw [h]
      exact Or.inl rfl
    · rw [h]
      exact Or.inr (Or.inl rfl)
  obtain ⟨sE, _, _, _⟩ := scan_sim v (scanBuf u).2 [] hrel (curOK_scanBuf u) curOK_nil
  exact sE

/-- Claim C1 (amended): for every splitting of a buffer into chunks, decoding
chunk-by-chunk (each call re-fed with the previous remainder) yields exactly
the events of the single full-buffer decode, in order; the final remainders
agree up to one of the two carrying one extra leading newline character. -/
theorem extractEvents_chunking_invariance (chunks : List (List Char)) :
    (decodeChunks chunks).1 = (extractEventsFromBuffer chunks.flatten).1 ∧
    ((decodeChunks chunks).2 = (extractEventsFromBuffer chunks.flatten).2 ∨
      (decodeChunks chunks).2 =
        '\n' :: (extractEventsFromBuffer chunks.flatten).2 ∨
      (extractEventsFromBuffer chunks.flatten).2 =
        '\n' :: (decodeChunks chunks).2) := by
  obtain ⟨hE, hR, hOf, hOc⟩ := decodeChunks_invariant chunks
  constructor
  · rw [events_eq_scan]
    exact hE
  · rw [remainder_eq_scan]
    by_cases ht : endsWithNN chunks.flatten = true
    · simp only [ht, if_true]
      rcases scanBuf_cur_of_terminated ht with h0 | h1
      · rw [h0] at hR
        rcases hR with h | h | h
        · exact Or.inl h.symm
        · cases h
        · exact Or.inr (Or.inl h)
      · rw [h1] at hR
        rcases hR with h | h | h
        · exact Or.inr (Or.inl h.symm)
        · rw [List.cons.injEq] at h
          exact Or.inl h.2.symm
        · exfalso
          rw [h] at hOc
          exact not_curOK_nn hOc
    · simp only [ht, if_false]
      rcases hR with h | h | h
      · exact Or.inl h.symm
      · exact Or.inr (Or.inr h)
      · exact Or.inr (Or.inl h)

/-- Claim C1 as frozen is false: the final remainders can differ.  Splitting
the buffer "\n\n\n" as "\n\n" then "\n", the single decode ends with
remainder "" (the buffer ends with the delimiter) while the chunked decode
ends with remainder "\n" (its last call's input is just "\n").  The event
sequences, here both empty, do agree — only the remainder breaks. -/
theorem extractEvents_chunking_counterexample :
    (decodeChunks [charsOf "\n\n", charsOf "\n"]).2 ≠
      (extractEventsFromBuffer
        (List.flatten [charsOf "\n\n", charsOf "\n"])).2 := by
  decide

/-- Every buffer splits as a processed part (empty, or ending with the frame
delimiter) followed by the scan's pending text, and the processed part alone
already accounts for all emitted segments. -/
theorem scan_decomp (b : List Char) :
    ∃ p, b = p ++ (scanBuf b).2 ∧ (p = [] ∨ endsWithNN p = true) ∧
      scanBuf p = ((scanBuf b).1, []) := by
  induction b using List.reverseRecOn with
  | nil => exact ⟨[], rfl, Or.inl rfl, rfl⟩
  | append_singleton b x ih =>
    obtain ⟨p, hsplit, hterm, hscan⟩ := ih
    have hstep : scanBuf (b ++ [x]) = scanStep (scanBuf b) x := by
      rw [scanBuf_append]
      rfl
    by_cases hx : x = '\n' ∧ (scanBuf b).2.getLast? = some '\n'
    · refine ⟨b ++ [x], ?_, Or.inr ?_, ?_⟩
      · rw [hstep]
        simp [scanStep, hx]
      · obtain ⟨cur', hcur⟩ : ∃ cur', (scanBuf b).2 = cur' ++ ['\n'] :=
          ⟨(scanBuf b).2.dropLast, (List.dropLast_append_getLast? _ hx.2).symm⟩
        rw [(endsWithNN_iff (b ++ [x])).2 ⟨p ++ cur', ?_⟩]
        rw [hx.1, hsplit, hcur]
        simp
      · rw [hstep]
        simp [scanStep, hx]
    · refine ⟨p, ?_, hterm, ?_⟩
      · rw [hstep]
        rw [show scanStep (scanBuf b) x = ((scanBuf b).1, (scanBuf b).2 ++ [x]) by
          cases hsb : scanBuf b with
          | mk a c =>
            simp only [scanStep]
            rw [if_neg]
            intro hcond
            exact hx ⟨hcond.1, by rw [hsb]; exact hcond.2⟩]
        rw [← List.append_assoc, ← hsplit]
      · rw [hstep]
        rw [show scanStep (scanBuf b) x = ((scanBuf b).1, (scanBuf b).2 ++ [x]) by
          cases hsb : scanBuf b with
          | mk a c =>
            simp only [scanStep]
            rw [if_neg]
            intro hcond
            exact hx ⟨hcond.1, by rw [hsb]; exact hcond.2⟩]
        exact hscan

/-- Claim C7: when the buffer does not end with the frame delimiter, the
decoder holds the text after the last delimiter back verbatim as the
remainder — the buffer is the processed prefix (empty or delimiter-
terminated) followed by the remainder, the remainder contains no complete
frame, and every event comes from the processed prefix alone; when the
buffer does end with the delimiter, the remainder is empty. -/
theorem extractEvents_remainder_spec (buffer : List Char) :
    (endsWithNN buffer = true → (extractEventsFromBuffer buffer).2 = []) ∧
    (endsWithNN buffer = false →
      ∃ processed,
        buffer = processed ++ (extractEventsFromBuffer buffer).2 ∧
        (processed = [] ∨ endsWithNN processed = true) ∧
        splitOnNN (extractEventsFromBuffer buffer).2 =
          [(extractEventsFromBuffer buffer).2] ∧
        (extractEventsFromBuffer buffer).1 =
          (extractEventsFromBuffer processed).1) := by
  constructor
  · intro h
    rw [remainder_eq_scan, if_pos h]
  · intro h
    have hrem : (extractEventsFromBuffer buffer).2 = (scanBuf buffer).2 := by
      rw [remainder_eq_scan, if_neg (by simp [h])]
    obtain ⟨p, hsplit, hterm, hscan⟩ := scan_decomp buffer
    refine ⟨p, by rw [hrem]; exact hsplit, hterm, ?_, ?_⟩
    · rw [hrem]
      unfold splitOnNN
      rw [show scanBuf (scanBuf buffer).2 = ([], (scanBuf buffer).2) from
        curOK_scanBuf buffer]
      rfl
    · rw [events_eq_scan, events_eq_scan, hscan]

/-- Witness for C7: a terminated buffer gives remainder ""; a buffer with a
trailing partial frame "xy" is decomposed around its held-back remainder. -/
theorem extractEvents_remainder_spec_witness :
    (extractEventsFromBuffer (charsOf "data: [DONE]\n\n")).2 = [] ∧
    (∃ processed,
      charsOf "data: [DONE]\n\nxy" =
        processed ++ (extractEventsFromBuffer (charsOf "data: [DONE]\n\nxy")).2 ∧
      (processed = [] ∨ endsWithNN processed = true) ∧
      splitOnNN (extractEventsFromBuffer (charsOf "data: [DONE]\n\nxy")).2 =
        [(extractEventsFromBuffer (charsOf "data: [DONE]\n\nxy")).2] ∧
      (extractEventsFromBuffer (charsOf "data: [DONE]\n\nxy")).1 =
        (extractEventsFromBuffer processed).1) :=
  ⟨(extractEvents_remainder_spec (charsOf "data: [DONE]\n\n")).1 rfl,
    (extractEvents_remainder_spec (charsOf "data: [DONE]\n\nxy")).2 rfl⟩

/-- Claim C6 (amended): a complete frame whose `data:` payload is non-empty,
is not the `[DONE]` sentinel and fails JSON parsing contributes exactly one
`Error` event; and decoding past a delimiter-terminated prefix is
compositional, so a bad frame never suppresses its sibling frames' events.
(The amendment adds "non-empty": the code skips a frame whose payload trims
to the empty string without emitting anything, even though `JSON.parse("")`
would fail.) -/
theorem malformed_frame_isolated :
    (∀ seg dl, dataLineOf seg = some dl →
      trimChars (dl.drop 5) ≠ [] →
      trimChars (dl.drop 5) ≠ charsOf "[DONE]" →
      jsonParse (trimChars (dl.drop 5)) = none →
      segmentEvent seg =
        some (.error (charsOf "Failed to parse streaming chunk."))) ∧
    (∀ u v, endsWithNN u = true →
      (extractEventsFromBuffer (u ++ v)).1 =
        (extractEventsFromBuffer u).1 ++ (extractEventsFromBuffer v).1) := by
  constructor
  · intro seg dl hdl hne hdone hparse
    unfold segmentEvent
    rw [hdl]
    simp only [if_neg hne, if_neg hdone, hparse]
  · intro u v hu
    exact events_append_of_terminated u v hu

/-- Witness for C6: the frame "data: @" fails parsing and yields one `Error`
event, and the sibling "data: [DONE]" frame in the same buffer still
produces its `Done` event. -/
theorem malformed_frame_isolated_witness :
    segmentEvent (charsOf "data: @") =
      some (.error (charsOf "Failed to parse streaming chunk.")) ∧
    (extractEventsFromBuffer (charsOf "data: @\n\ndata: [DONE]\n\n")).1 =
      (extractEventsFromBuffer (charsOf "data: @\n\n")).1 ++
        (extractEventsFromBuffer (charsOf "data: [DONE]\n\n")).1 ∧
    (extractEventsFromBuffer (charsOf "data: @\n\ndata: [DONE]\n\n")).1 =
      [.error (charsOf "Failed to parse streaming chunk."), .done] :=
  ⟨malformed_frame_isolated.1 (charsOf "data: @") (charsOf "data: @") rfl
      (by decide) (by decide) rfl,
    malformed_frame_isolated.2 (charsOf "data: @\n\n")
      (charsOf "data: [DONE]\n\n") rfl,
    by rfl⟩

/-- Claim C6 as frozen is false for a frame whose payload trims to the empty
string: "data:" has a payload that is not `[DONE]` and fails JSON parsing,
yet the decoder emits no event at all for it (the `if (!payload) continue`
guard runs before parsing). -/
theorem malformed_frame_counterexample :
    dataLineOf (charsOf "data:") = some (charsOf "data:") ∧
    trimChars ((charsOf "data:").drop 5) ≠ charsOf "[DONE]" ∧
    jsonParse (trimChars ((charsOf "data:").drop 5)) = none ∧
    (extractEventsFromBuffer (charsOf "data:\n\n")).1 = [] := by
  refine ⟨rfl, by decide, rfl, rfl⟩

/-- Claim C3 (amended): once `reasoningDurationSeconds` is set, later `delta`
events (reasoning or content) and the `done` finalization leave it intact;
the `error` finalization, however, discards it (sets it back to unset). -/
theorem reasoningDuration_frozen :
    (∀ m now c r d, m.reasoningDurationSeconds = some d →
      (foldDeltaEvent now c r m).reasoningDurationSeconds = some d) ∧
    (∀ m now d, m.reasoningDurationSeconds = some d →
      (finalizeDoneMessage now m).reasoningDurationSeconds = some d) ∧
    (∀ m e, (finalizeErrorMessage e m).reasoningDurationSeconds = none) := by
  refine ⟨?_, ?_, ?_⟩
  · intro m now c r d h
    simp only [foldDeltaEvent]
    repeat' split
    all_goals simp_all
  · intro m now d h
    unfold finalizeDoneMessage
    simp [h]
  · intro m e
    rfl

/-- Witness for C3: a message with duration 5 keeps it through a reasoning
delta and through `done` finalization. -/
theorem reasoningDuration_frozen_witness :
    (foldDeltaEvent 9000 none (some (charsOf "more"))
      { id := [], role := .assistant, content := []
        reasoningDurationSeconds := some 5 }).reasoningDurationSeconds =
      some 5 ∧
    (finalizeDoneMessage 9000
      { id := [], role := .assistant, content := []
        reasoningDurationSeconds := some 5 }).reasoningDurationSeconds =
      some 5 ∧
    (finalizeErrorMessage (charsOf "boom")
      { id := [], role := .assistant, content := []
        reasoningDurationSeconds := some 5 }).reasoningDurationSeconds =
      none :=
  ⟨reasoningDuration_frozen.1 _ 9000 none (some (charsOf "more")) 5 rfl,
    reasoningDuration_frozen.2.1 _ 9000 5 rfl,
    reasoningDuration_frozen.2.2 _ (charsOf "boom")⟩

/-- Claim C3 as frozen is false: the `error` finalization does not leave an
already-set `reasoningDurationSeconds` intact — it resets it to unset. -/
theorem reasoningDuration_frozen_counterexample :
    ({ id := [], role := .assistant, content := []
       reasoningDurationSeconds := some 5 : ChatMessage
     }).reasoningDurationSeconds = some 5 ∧
    (finalizeErrorMessage (charsOf "boom")
      { id := [], role := .assistant, content := []
        reasoningDurationSeconds := some 5 }).reasoningDurationSeconds ≠
      some 5 := by
  exact ⟨rfl, by decide⟩

/-- Claim C4 (amended): every `delta` event carrying reasoning text assigns
`reasoningStoppedAt := now` (refreshing it on each reasoning delta, not only
at the reasoning-to-content transition); a `delta` without reasoning text
never changes it; and both finalizations clear it from the record. -/
theorem reasoningStoppedAt_behavior :
    (∀ m now c s, s ≠ [] →
      (foldDeltaEvent now c (some s) m).reasoningStoppedAt = some now) ∧
    (∀ m now c,
      (foldDeltaEvent now c none m).reasoningStoppedAt =
        m.reasoningStoppedAt) ∧
    (∀ m now, (finalizeDoneMessage now m).reasoningStoppedAt = none) ∧
    (∀ m e, (finalizeErrorMessage e m).reasoningStoppedAt = none) := by
  refine ⟨?_, ?_, fun m now => rfl, fun m e => rfl⟩
  · intro m now c s hs
    cases s with
    | nil => exact absurd rfl hs
    | cons a as => simp [foldDeltaEvent, strTruthy]
  · intro m now c
    simp only [foldDeltaEvent]
    repeat' split
    all_goals simp_all [strTruthy]

/-- Witness for C4 at concrete inputs: a reasoning delta stamps the time, a
content-only delta leaves it unchanged, both finalizations clear it. -/
theorem reasoningStoppedAt_behavior_witness :
    (foldDeltaEvent 1000 none (some (charsOf "t"))
      (createPlaceholderMessage [])).reasoningStoppedAt = some 1000 ∧
    (foldDeltaEvent 2000 (some (charsOf "c")) none
      (createPlaceholderMessage [])).reasoningStoppedAt =
      (createPlaceholderMessage []).reasoningStoppedAt ∧
    (finalizeDoneMessage 3000
      (createPlaceholderMessage [])).reasoningStoppedAt = none ∧
    (finalizeErrorMessage (charsOf "e")
      (createPlaceholderMessage [])).reasoningStoppedAt = none :=
  ⟨reasoningStoppedAt_behavior.1 _ 1000 none _ (by decide),
    reasoningStoppedAt_behavior.2.1 _ 2000 _,
    reasoningStoppedAt_behavior.2.2.1 _ 3000,
    reasoningStoppedAt_behavior.2.2.2 _ (charsOf "e")⟩

/-- Claim C4 as frozen is false: a `delta` carrying only reasoning text does
assign `reasoningStoppedAt` (to the current time), with no transition to
content and no stream end involved — the content is untouched. -/
theorem reasoningStoppedAt_counterexample :
    (createPlaceholderMessage []).reasoningStoppedAt = none ∧
    (foldDeltaEvent 1000 none (some (charsOf "think"))
      (createPlaceholderMessage [])).reasoningStoppedAt = some 1000 ∧
    (foldDeltaEvent 1000 none (some (charsOf "think"))
      (createPlaceholderMessage [])).content =
      (createPlaceholderMessage []).content := by
  decide

theorem textFromContentField_eq :
    ∀ (fields : JsonObject) (v : JsonValue),
      jGet fields (charsOf "content") = some v →
      textFromContentField fields = extractTextFromContent v
  | .nil, v, h => by cases h
  | .cons k w rest, v, h => by
    unfold textFromContentField
    unfold jGet at h
    cases hr : jGet rest (charsOf "content") with
    | some u =>
      rw [hr] at h
      cases h
      simp only [hr, Option.isSome, if_true]
      exact textFromContentField_eq rest _ hr
    | none =>
      rw [hr] at h
      by_cases hk : k = charsOf "content"
      · rw [if_pos hk] at h
        cases h
        simp [hr, hk]
      · rw [if_neg hk] at h
        cases h

theorem reasoningFromContentField_eq :
    ∀ (fields : JsonObject) (v : JsonValue),
      jGet fields (charsOf "content") = some v →
      reasoningFromContentField fields = extractReasoningText v
  | .nil, v, h => by cases h
  | .cons k w rest, v, h => by
    unfold reasoningFromContentField
    unfold jGet at h
    cases hr : jGet rest (charsOf "content") with
    | some u =>
      rw [hr] at h
      cases h
      simp only [hr, Option.isSome, if_true]
      exact reasoningFromContentField_eq rest _ hr
    | none =>
      rw [hr] at h
      by_cases hk : k = charsOf "content"
      · rw [if_pos hk] at h
        cases h
        simp [hr, hk]
      · rw [if_neg hk] at h
        cases h

/-- Claim C5 (amended): both channel extractions return a string leaf as is
and concatenate over arrays in encounter order, but an object does NOT
contribute every matching field: the fields are probed in a fixed priority
order and only the first match contributes.  The content channel answers a
string `text` field, else recurses into `content`; the reasoning channel
answers `text`, else `summary` (with a blank-line suffix), else `data`, else
recurses into `content`. -/
theorem extract_channels_semantics :
    (∀ s, extractTextFromContent (.str s) = s ∧
      extractReasoningText (.str s) = s) ∧
    (∀ v rest,
      extractTextFromContent (.arr (.cons v rest)) =
        extractTextFromContent v ++ extractTextFromContent (.arr rest) ∧
      extractReasoningText (.arr (.cons v rest)) =
        extractReasoningText v ++ extractReasoningText (.arr rest)) ∧
    (∀ fields s, asStr (jGet fields (charsOf "text")) = some s →
      extractTextFromContent (.obj fields) = s ∧
      extractReasoningText (.obj fields) = s) ∧
    (∀ fields s, asStr (jGet fields (charsOf "text")) = none →
      asStr (jGet fields (charsOf "summary")) = some s →
      extractReasoningText (.obj fields) = s ++ charsOf "\n\n") ∧
    (∀ fields s, asStr (jGet fields (charsOf "text")) = none →
      asStr (jGet fields (charsOf "summary")) = none →
      asStr (jGet fields (charsOf "data")) = some s →
      extractReasoningText (.obj fields) = s) ∧
    (∀ fields v, asStr (jGet fields (charsOf "text")) = none →
      jGet fields (charsOf "content") = some v →
      extractTextFromContent (.obj fields) = extractTextFromContent v) ∧
    (∀ fields v, asStr (jGet fields (charsOf "text")) = none →
      asStr (jGet fields (charsOf "summary")) = none →
      asStr (jGet fields (charsOf "data")) = none →
      jGet fields (charsOf "content") = some v →
      extractReasoningText (.obj fields) = extractReasoningText v) := by
  refine ⟨fun s => ⟨rfl, rfl⟩, fun v rest => ⟨rfl, rfl⟩, ?_, ?_, ?_, ?_, ?_⟩
  · intro fields s hT
    constructor
    · unfold extractTextFromContent
      rw [hT]
    · unfold extractReasoningText
      rw [hT]
  · intro fields s hT hS
    unfold extractReasoningText
    rw [hT, hS]
  · intro fields s hT hS hD
    unfold extractReasoningText
    rw [hT, hS, hD]
  · intro fields v hT hC
    have h1 : extractTextFromContent (.obj fields) = textFromContentField fields := by
      unfold extractTextFromContent
      rw [hT]
    rw [h1]
    exact textFromContentField_eq fields v hC
  · intro fields v hT hS hD hC
    have h1 : extractReasoningText (.obj fields) =
        reasoningFromContentField fields := by
      unfold extractReasoningText
      rw [hT, hS, hD]
    rw [h1]
    exact reasoningFromContentField_eq fields v hC

/-- Witness for C5 at concrete values: a `text` field wins over a sibling
`summary` field; with no string `text`, `summary` is answered with its
blank-line suffix; with neither, a `content` field is recursed into. -/
theorem extract_channels_semantics_witness :
    extractReasoningText
      (.obj (.cons (charsOf "text") (.str (charsOf "a"))
        (.cons (charsOf "summary") (.str (charsOf "b")) .nil))) =
      charsOf "a" ∧
    extractReasoningText
      (.obj (.cons (charsOf "summary") (.str (charsOf "b")) .nil)) =
      charsOf "b" ++ charsOf "\n\n" ∧
    extractReasoningText
      (.obj (.cons (charsOf "content") (.str (charsOf "c")) .nil)) =
      extractReasoningText (.str (charsOf "c")) :=
  ⟨(extract_channels_semantics.2.2.1
      (JsonObject.cons (charsOf "text") (.str (charsOf "a"))
        (JsonObject.cons (charsOf "summary") (.str (charsOf "b")) .nil))
      (charsOf "a") rfl).2,
    extract_channels_semantics.2.2.2.1
      (JsonObject.cons (charsOf "summary") (.str (charsOf "b")) .nil)
      (charsOf "b") rfl rfl,
    extract_channels_semantics.2.2.2.2.2.2
      (JsonObject.cons (charsOf "content") (.str (charsOf "c")) .nil)
      (.str (charsOf "c")) rfl rfl rfl rfl⟩

/-- Claim C5 as frozen is false: an object carrying both a `text` and a
`summary` field contributes only the `text` leaf — the `summary` leaf "b" is
absent from the extracted reasoning text. -/
theorem extract_channels_counterexample :
    extractReasoningText
      (.obj (.cons (charsOf "text") (.str (charsOf "a"))
        (.cons (charsOf "summary") (.str (charsOf "b")) .nil))) =
      charsOf "a" ∧
    'b' ∉
      extractReasoningText
        (.obj (.cons (charsOf "text") (.str (charsOf "a"))
          (.cons (charsOf "summary") (.str (charsOf "b")) .nil))) := by
  decide

/-- Claim C10: for a message whose content trims to the empty string and
which carries at least one attachment, the mapper sends a parts list whose
first element is the fixed fallback text part, followed by one image part
per attachment in order. -/
theorem mapMessage_attachment_only_fallback (m : ChatMessage)
    (l : List ChatAttachment) (hTrim : trimChars m.content = [])
    (hAtt : m.attachments = some l) (hNe : l ≠ []) :
    mapMessageToApiContent m =
      .parts (.text ATTACHMENT_ONLY_FALLBACK_TEXT ::
        l.map (fun a => .imageUrl a.dataUrl)) := by
  cases l with
  | nil => exact absurd rfl hNe
  | cons a as =>
    simp [mapMessageToApiContent, hTrim, hAtt, attachmentsTruthy]

/-- Witness for C10: a blank-content message with one attachment maps to the
fallback text part followed by that attachment's image part. -/
theorem mapMessage_attachment_only_fallback_witness :
    mapMessageToApiContent
      { id := charsOf "m1"
        role := .user
        content := charsOf "  "
        attachments := some [⟨charsOf "a1", charsOf "p.jpg", 10,
          charsOf "image/jpeg", charsOf "data:image/jpeg;base64,AAAA"⟩] } =
      .parts [.text ATTACHMENT_ONLY_FALLBACK_TEXT,
        .imageUrl (charsOf "data:image/jpeg;base64,AAAA")] :=
  mapMessage_attachment_only_fallback _
    [⟨charsOf "a1", charsOf "p.jpg", 10, charsOf "image/jpeg",
      charsOf "data:image/jpeg;base64,AAAA"⟩] (by decide) rfl (by decide)

/-- Modelled from the spec: the standard base64 alphabet (RFC 4648), for
stating size-estimation exactness against a reference encoding. -/
def base64Alphabet : List Char :=
  charsOf "ABCDEFGHIJKLMNOPQRSTUVWXYZabcdefghijklmnopqrstuvwxyz0123456789+/"

/-- The alphabet character of a six-bit value. -/
def sixBitChar (n : ℕ) : Char := (base64Alphabet.get? (n % 64)).getD 'A'

/-- Modelled from the spec: the standard base64 encoding of a byte sequence,
with `=` padding — one trailing byte encodes as two characters and `==`, two
trailing bytes as three characters and `=`. -/
def base64Encode : List ℕ → List Char
  | [] => []
  | [b1] => [sixBitChar (b1 / 4), sixBitChar (b1 % 4 * 16), '=', '=']
  | [b1, b2] =>
    [sixBitChar (b1 / 4), sixBitChar (b1 % 4 * 16 + b2 / 16),
      sixBitChar (b2 % 16 * 4), '=']
  | b1 :: b2 :: b3 :: rest =>
    sixBitChar (b1 / 4) :: sixBitChar (b1 % 4 * 16 + b2 / 16) ::
      sixBitChar (b2 % 16 * 4 + b3 / 64) :: sixBitChar (b3 % 64) ::
      base64Encode rest

theorem sixBitChar_ne_eq (n : ℕ) : sixBitChar n ≠ '=' := by
  have h : n % 64 < 64 := Nat.mod_lt _ (by norm_num)
  unfold sixBitChar
  revert h
  generalize n % 64 = k
  revert k
  decide

theorem sixBitChar_ne_comma (n : ℕ) : sixBitChar n ≠ ',' := by
  have h : n % 64 < 64 := Nat.mod_lt _ (by norm_num)
  unfold sixBitChar
  revert h
  generalize n % 64 = k
  revert k
  decide

theorem padOf_le (x : List Char) : padOf x ≤ 2 := by
  unfold padOf
  (repeat' split) <;> omega

theorem base64Encode_comma_free : ∀ bytes : List ℕ, ',' ∉ base64Encode bytes
  | [] => by simp [base64Encode]
  | [b1] => by
    intro h
    simp only [base64Encode, List.mem_cons, List.not_mem_nil, or_false] at h
    rcases h with h | h | h | h
    · exact sixBitChar_ne_comma _ h.symm
    · exact sixBitChar_ne_comma _ h.symm
    · exact absurd h (by decide)
    · exact absurd h (by decide)
  | [b1, b2] => by
    intro h
    simp only [base64Encode, List.mem_cons, List.not_mem_nil, or_false] at h
    rcases h with h | h | h | h
    · exact sixBitChar_ne_comma _ h.symm
    · exact sixBitChar_ne_comma _ h.symm
    · exact sixBitChar_ne_comma _ h.symm
    · exact absurd h (by decide)
  | b1 :: b2 :: b3 :: rest => by
    intro h
    simp only [base64Encode, List.mem_cons] at h
    rcases h with h | h | h | h | h
    · exact sixBitChar_ne_comma _ h.symm
    · exact sixBitChar_ne_comma _ h.symm
    · exact sixBitChar_ne_comma _ h.symm
    · exact sixBitChar_ne_comma _ h.symm
    · exact base64Encode_comma_free rest h

theorem base64Encode_length :
    ∀ bytes : List ℕ, (base64Encode bytes).length = 4 * ((bytes.length + 2) / 3)
  | [] => rfl
  | [b1] => by simp [base64Encode]
  | [b1, b2] => by simp [base64Encode]
  | b1 :: b2 :: b3 :: rest => by
    simp only [base64Encode, List.length_cons, base64Encode_length rest]
    omega

theorem base64Encode_estimate :
    ∀ bytes : List ℕ, bytes ≠ [] →
      (base64Encode bytes).length * 3 / 4 - padOf (base64Encode bytes) =
        bytes.length
  | [], h => absurd rfl h
  | [b1], _ => by simp [base64Encode, padOf]
  | [b1, b2], _ => by
    simp [base64Encode, padOf, sixBitChar_ne_eq (b2 % 16 * 4)]
  | b1 :: b2 :: b3 :: rest, _ => by
    by_cases hr : rest = []
    · subst hr
      simp [base64Encode, padOf, sixBitChar_ne_eq (b3 % 64)]
    · have ih := base64Encode_estimate rest hr
      have hlen := base64Encode_length rest
      have hpos : 0 < rest.length := List.length_pos.mpr hr
      have hge : 4 ≤ (base64Encode rest).length := by omega
      have hpad : padOf (base64Encode (b1 :: b2 :: b3 :: rest)) =
          padOf (base64Encode rest) := by
        obtain ⟨a, b, t, hrev⟩ :
            ∃ a b t, (base64Encode rest).reverse = a :: b :: t := by
          rcases hx : (base64Encode rest).reverse with _ | ⟨a, _ | ⟨b, t⟩⟩
          · exfalso
            have hlr := congrArg List.length hx
            simp only [List.length_reverse, List.length_nil] at hlr
            omega
          · exfalso
            have hlr := congrArg List.length hx
            simp only [List.length_reverse, List.length_cons,
              List.length_nil] at hlr
            omega
          · exact ⟨a, b, t, rfl⟩
        have hfront : (base64Encode (b1 :: b2 :: b3 :: rest)).reverse =
            a :: b :: (t ++ [sixBitChar (b3 % 64),
              sixBitChar (b2 % 16 * 4 + b3 / 64),
              sixBitChar (b1 % 4 * 16 + b2 / 16), sixBitChar (b1 / 4)]) := by
          show (List.cons _ (List.cons _ (List.cons _ (List.cons _
            (base64Encode rest))))).reverse = _
          simp [hrev]
        unfold padOf
        rw [hfront, hrev]
      have hL : (base64Encode (b1 :: b2 :: b3 :: rest)).length =
          4 + (base64Encode rest).length := by
        simp [base64Encode]
        omega
      have hp2 := padOf_le (base64Encode rest)
      have hmod : (base64Encode rest).length % 4 = 0 := by omega
      rw [hpad, hL]
      simp only [List.length_cons]
      omega

theorem splitOnComma_no_comma : ∀ b : List Char, ',' ∉ b → splitOnComma b = [b]
  | [], _ => rfl
  | c :: rest, h => by
    unfold splitOnComma
    rw [if_neg fun hc => h (by rw [← hc]; exact List.mem_cons_self c rest),
      splitOnComma_no_comma rest fun hr => h (List.mem_cons_of_mem _ hr)]

theorem splitOnComma_append :
    ∀ a b : List Char, ',' ∉ a → ',' ∉ b →
      splitOnComma (a ++ ',' :: b) = [a, b]
  | [], b, _, hb => by
    simp only [List.nil_append]
    unfold splitOnComma
    rw [if_pos rfl, splitOnComma_no_comma b hb]
  | c :: a', b, ha, hb => by
    simp only [List.cons_append]
    unfold splitOnComma
    rw [if_neg fun hc => ha (by rw [← hc]; exact List.mem_cons_self c a'),
      splitOnComma_append a' b (fun h => ha (List.mem_cons_of_mem _ h)) hb]

/-- Claim C8: size estimation is exact — for every data-URL whose portion
after the first comma is the standard base64 encoding of a binary payload of
length L (ending with 0, 1 or 2 padding characters as the length dictates),
`estimateBase64Size` returns exactly L. -/
theorem estimateBase64Size_exact (bytes : List ℕ) (meta : List Char)
    (hMeta : ',' ∉ meta) :
    estimateBase64Size (meta ++ ',' :: base64Encode bytes) = bytes.length := by
  have hb : ',' ∉ base64Encode bytes := base64Encode_comma_free bytes
  unfold estimateBase64Size
  rw [splitOnComma_append meta _ hMeta hb]
  simp only [List.get?, Option.getD_some]
  cases hbe : base64Encode bytes with
  | nil =>
    have hl := base64Encode_length bytes
    rw [hbe] at hl
    simp only [List.length_nil] at hl
    rw [if_pos rfl]
    omega
  | cons x xs =>
    rw [if_neg (by simp)]
    rw [← hbe]
    exact base64Encode_estimate bytes fun h0 => by
      rw [h0] at hbe
      cases hbe

/-- Witness for C8: a four-byte payload behind a comma-free data-URL header
is estimated at exactly 4 bytes (its encoding ends in one `=`). -/
theorem estimateBase64Size_exact_witness :
    estimateBase64Size
      (charsOf "data:image/jpeg;base64" ++ ',' :: base64Encode [10, 20, 30, 40]) =
      4 :=
  estimateBase64Size_exact [10, 20, 30, 40] (charsOf "data:image/jpeg;base64")
    (by decide)

theorem toFixedRound_val (digits : ℕ) (x : ℚ) (n : ℤ)
    (h1 : (n : ℚ) ≤ x * 10 ^ digits + 1 / 2)
    (h2 : x * 10 ^ digits + 1 / 2 < n + 1) :
    toFixedRound digits x = (n : ℚ) / 10 ^ digits := by
  unfold toFixedRound
  rw [Int.floor_eq_iff.mpr ⟨h1, h2⟩]

theorem jsRound_val (x : ℚ) (n : ℤ) (h1 : (n : ℚ) ≤ x + 1 / 2)
    (h2 : x + 1 / 2 < n + 1) : jsRound x = n.toNat := by
  unfold jsRound
  rw [Int.floor_eq_iff.mpr ⟨h1, h2⟩]

/-- Claim C9: in every iteration of the adjustment loop, quality is lowered
(in 0.10 steps clamped to the 0.55 floor) while it is above the floor, with
the scale untouched; the 0.85 downscale step runs only with quality at its
floor; the scale never drops below the floor scale; each adjusted state is
re-rendered and re-measured; and "scale still initial or quality at floor"
is invariant, so quality is exhausted before any downscale happens. -/
theorem compress_adjust_policy (render : ℕ → ℕ → ℚ → List Char) (ow oh : ℕ)
    (minScale : ℚ) :
    (∀ st : CompressState, MIN_JPEG_QUALITY < st.quality →
      (adjustStep render ow oh minScale st).quality =
        max MIN_JPEG_QUALITY (toFixedRound 2 (st.quality - 1 / 10)) ∧
      (adjustStep render ow oh minScale st).scale = st.scale ∧
      (adjustStep render ow oh minScale st).width = st.width ∧
      (adjustStep render ow oh minScale st).height = st.height) ∧
    (∀ st : CompressState, ¬ MIN_JPEG_QUALITY < st.quality →
      minScale < st.scale →
      (adjustStep render ow oh minScale st).quality = st.quality ∧
      (adjustStep render ow oh minScale st).scale =
        max minScale (toFixedRound 4 (st.scale * DOWNSCALE_STEP))) ∧
    (∀ st : CompressState, minScale ≤ st.scale →
      minScale ≤ (adjustStep render ow oh minScale st).scale) ∧
    (∀ st : CompressState,
      (adjustStep render ow oh minScale st).dataUrl =
        render (adjustStep render ow oh minScale st).width
          (adjustStep render ow oh minScale st).height
          (adjustStep render ow oh minScale st).quality ∧
      (adjustStep render ow oh minScale st).size =
        estimateBase64Size (adjustStep render ow oh minScale st).dataUrl) ∧
    (∀ (st : CompressState) (s0 : ℚ),
      st.scale = s0 ∨ st.quality ≤ MIN_JPEG_QUALITY →
      (adjustStep render ow oh minScale st).scale = s0 ∨
        (adjustStep render ow oh minScale st).quality ≤ MIN_JPEG_QUALITY) ∧
    (∀ (fuel : ℕ) (st st' : CompressState),
      compressLoop render ow oh minScale fuel st = some st' →
      minScale ≤ st.scale → minScale ≤ st'.scale) := by
  have hscale : ∀ st : CompressState, minScale ≤ st.scale →
      minScale ≤ (adjustStep render ow oh minScale st).scale := by
    intro st h
    unfold adjustStep
    by_cases hq : MIN_JPEG_QUALITY < st.quality
    · rw [if_pos hq]
      exact h
    · by_cases hs : minScale < st.scale
      · rw [if_neg hq, if_pos hs]
        exact le_max_left _ _
      · rw [if_neg hq, if_neg hs]
        exact h
  refine ⟨?_, ?_, hscale, fun st => ⟨rfl, rfl⟩, ?_, ?_⟩
  · intro st h
    unfold adjustStep
    rw [if_pos h]
    exact ⟨rfl, rfl, rfl, rfl⟩
  · intro st h1 h2
    unfold adjustStep
    rw [if_neg h1, if_pos h2]
    exact ⟨rfl, rfl⟩
  · intro st s0 h
    unfold adjustStep
    by_cases hq : MIN_JPEG_QUALITY < st.quality
    · rcases h with h | h
      · rw [if_pos hq]
        exact Or.inl h
      · exact absurd hq (not_lt.mpr h)
    · by_cases hs : minScale < st.scale
      · rw [if_neg hq, if_pos hs]
        exact Or.inr (not_lt.mp hq)
      · rw [if_neg hq, if_neg hs]
        exact Or.inr (not_lt.mp hq)
  · intro fuel
    induction fuel with
    | zero => intro st st' hF; cases hF
    | succ n ih =>
      intro st st' hF hs
      rw [show compressLoop render ow oh minScale (n + 1) st =
        if loopGuard minScale st then
          compressLoop render ow oh minScale n
            (adjustStep render ow oh minScale st)
        else some st from rfl] at hF
      by_cases hg : loopGuard minScale st
      · rw [if_pos hg] at hF
        exact ih _ _ hF (hscale st hs)
      · rw [if_neg hg] at hF
        cases hF
        exact hs

/-- Witness for C9: one quality step at a concrete oversized state reduces
quality per the formula and respects the scale floor. -/
theorem compress_adjust_policy_witness :
    (adjustStep (fun _ _ _ => []) 1 1 (1 / 4)
      ⟨85 / 100, 1 / 2, 3, 3, [], 2000000⟩).quality =
      max MIN_JPEG_QUALITY (toFixedRound 2 ((85 : ℚ) / 100 - 1 / 10)) ∧
    (1 : ℚ) / 4 ≤ (adjustStep (fun _ _ _ => []) 1 1 (1 / 4)
      ⟨85 / 100, 1 / 2, 3, 3, [], 2000000⟩).scale :=
  ⟨((compress_adjust_policy (fun _ _ _ => []) 1 1 (1 / 4)).1
      ⟨85 / 100, 1 / 2, 3, 3, [], 2000000⟩
      (show MIN_JPEG_QUALITY < (85 : ℚ) / 100 by
        norm_num [MIN_JPEG_QUALITY])).1,
    (compress_adjust_policy (fun _ _ _ => []) 1 1 (1 / 4)).2.2.1
      ⟨85 / 100, 1 / 2, 3, 3, [], 2000000⟩
      (show (1 : ℚ) / 4 ≤ 1 / 2 by norm_num)⟩

/-- A constant oversized render output: a data-URL whose base64 portion has
2100000 characters, hence an estimated 1575000 bytes — above the 1572864
ceiling.  Used to exhibit a run of the adjustment loop that never ends. -/
def hugeDataUrl : List Char := ',' :: List.replicate 2100000 'A'

/-- A render step that always produces the oversized output, whatever the
requested size and quality. -/
def constRender : ℕ → ℕ → ℚ → List Char := fun _ _ _ => hugeDataUrl

/-- The state the loop reaches on an 8000000 × 1 image with `constRender`
after its three quality steps: quality at the floor, scale stalled at
0.0002 (round-to-4-decimals of 0.0002·0.85 is 0.0002 again), output still
oversized. -/
def stuckState : CompressState :=
  ⟨55 / 100, 1 / 5000, 1600, 1, hugeDataUrl, 1575000⟩

theorem padOf_replicate_A : ∀ n, padOf (List.replicate n 'A') = 0 := by
  intro n
  unfold padOf
  rw [List.reverse_replicate]
  cases n with
  | zero => rfl
  | succ m =>
    rw [List.replicate_succ]
    cases m with
    | zero => decide
    | succ k =>
      rw [List.replicate_succ]
      simp

theorem estimate_comma_replicate (n : ℕ) (hn : 0 < n) :
    estimateBase64Size (',' :: List.replicate n 'A') = n * 3 / 4 := by
  unfold estimateBase64Size
  have hnc : ',' ∉ List.replicate n 'A' := fun h =>
    absurd (List.eq_of_mem_replicate h) (by decide)
  have hsplit := splitOnComma_append [] (List.replicate n 'A') (by simp) hnc
  simp only [List.nil_append] at hsplit
  rw [hsplit]
  show (if List.replicate n 'A' = [] then 0
    else (List.replicate n 'A').length * 3 / 4 -
      padOf (List.replicate n 'A')) = n * 3 / 4
  rw [if_neg ?hne, padOf_replicate_A, List.length_replicate, Nat.sub_zero]
  case hne =>
    intro h
    have h2 := congrArg List.length h
    rw [List.length_replicate] at h2
    simp only [List.length_nil] at h2
    omega

theorem hugeDataUrl_size : estimateBase64Size hugeDataUrl = 1575000 := by
  unfold hugeDataUrl
  rw [estimate_comma_replicate 2100000 (by norm_num)]

theorem q_step_85 :
    max MIN_JPEG_QUALITY (toFixedRound 2 ((85 : ℚ) / 100 - 1 / 10)) =
      75 / 100 := by
  rw [show ((85 : ℚ) / 100 - 1 / 10) = 75 / 100 by norm_num,
    toFixedRound_val 2 ((75 : ℚ) / 100) 75 (by norm_num) (by norm_num),
    max_eq_right (by norm_num [MIN_JPEG_QUALITY])]
  norm_num

theorem q_step_75 :
    max MIN_JPEG_QUALITY (toFixedRound 2 ((75 : ℚ) / 100 - 1 / 10)) =
      65 / 100 := by
  rw [show ((75 : ℚ) / 100 - 1 / 10) = 65 / 100 by norm_num,
    toFixedRound_val 2 ((65 : ℚ) / 100) 65 (by norm_num) (by norm_num),
    max_eq_right (by norm_num [MIN_JPEG_QUALITY])]
  norm_num

theorem q_step_65 :
    max MIN_JPEG_QUALITY (toFixedRound 2 ((65 : ℚ) / 100 - 1 / 10)) =
      55 / 100 := by
  rw [show ((65 : ℚ) / 100 - 1 / 10) = 55 / 100 by norm_num,
    toFixedRound_val 2 ((55 : ℚ) / 100) 55 (by norm_num) (by norm_num),
    max_eq_right (by norm_num [MIN_JPEG_QUALITY])]
  norm_num

theorem adjustStep_quality_const (ms : ℚ) (ow oh : ℕ) (st : CompressState)
    (hq : MIN_JPEG_QUALITY < st.quality) (q' : ℚ)
    (hq' : max MIN_JPEG_QUALITY (toFixedRound 2 (st.quality - 1 / 10)) = q') :
    adjustStep constRender ow oh ms st =
      ⟨q', st.scale, st.width, st.height, hugeDataUrl, 1575000⟩ := by
  unfold adjustStep
  rw [if_pos hq]
  show CompressState.mk
    (max MIN_JPEG_QUALITY (toFixedRound 2 (st.quality - 1 / 10)))
    st.scale st.width st.height hugeDataUrl
    (estimateBase64Size hugeDataUrl) = _
  rw [hq', hugeDataUrl_size]

theorem adjust_stuck :
    adjustStep constRender 8000000 1 (1 / 15625) stuckState = stuckState := by
  unfold adjustStep stuckState
  rw [if_neg (show ¬ MIN_JPEG_QUALITY < (55 : ℚ) / 100 by
      norm_num [MIN_JPEG_QUALITY]),
    if_pos (show (1 : ℚ) / 15625 < 1 / 5000 by norm_num)]
  have hns : max ((1 : ℚ) / 15625)
      (toFixedRound 4 ((1 : ℚ) / 5000 * DOWNSCALE_STEP)) = 1 / 5000 := by
    rw [show ((1 : ℚ) / 5000 * DOWNSCALE_STEP) = 17 / 100000 by
        norm_num [DOWNSCALE_STEP],
      toFixedRound_val 4 ((17 : ℚ) / 100000) 2 (by norm_num) (by norm_num)]
    norm_num
  show CompressState.mk (55 / 100)
    (max ((1 : ℚ) / 15625) (toFixedRound 4 ((1 : ℚ) / 5000 * DOWNSCALE_STEP)))
    (max (jsRound (((8000000 : ℕ) : ℚ) *
      (max ((1 : ℚ) / 15625)
        (toFixedRound 4 ((1 : ℚ) / 5000 * DOWNSCALE_STEP))))) 1)
    (max (jsRound (((1 : ℕ) : ℚ) *
      (max ((1 : ℚ) / 15625)
        (toFixedRound 4 ((1 : ℚ) / 5000 * DOWNSCALE_STEP))))) 1)
    hugeDataUrl (estimateBase64Size hugeDataUrl) = _
  rw [hns, hugeDataUrl_size,
    show (((8000000 : ℕ) : ℚ) * (1 / 5000)) = 1600 by push_cast; norm_num,
    show (((1 : ℕ) : ℚ) * (1 / 5000)) = 1 / 5000 by push_cast; norm_num,
    jsRound_val (1600 : ℚ) 1600 (by norm_num) (by norm_num),
    jsRound_val ((1 : ℚ) / 5000) 0 (by norm_num) (by norm_num)]
  rfl

theorem init_scale_8m : compressInitialScale 8000000 1 = 1 / 5000 := by
  unfold compressInitialScale compressMaxEdge
  rw [show (max 8000000 1 : ℕ) = 8000000 from rfl]
  rw [if_neg (show ¬ min 1 ((MAX_ATTACHMENT_EDGE : ℚ) / ((8000000 : ℕ) : ℚ)) ≤ 0 by
    push_cast [MAX_ATTACHMENT_EDGE]
    norm_num)]
  push_cast [MAX_ATTACHMENT_EDGE]
  norm_num

theorem init_state_8m :
    compressInitState constRender 8000000 1 =
      ⟨85 / 100, 1 / 5000, 1600, 1, hugeDataUrl, 1575000⟩ := by
  unfold compressInitState
  show CompressState.mk DEFAULT_JPEG_QUALITY (compressInitialScale 8000000 1)
    (max (jsRound (((8000000 : ℕ) : ℚ) * compressInitialScale 8000000 1)) 1)
    (max (jsRound (((1 : ℕ) : ℚ) * compressInitialScale 8000000 1)) 1)
    hugeDataUrl (estimateBase64Size hugeDataUrl) = _
  rw [init_scale_8m, hugeDataUrl_size,
    show (((8000000 : ℕ) : ℚ) * (1 / 5000)) = 1600 by push_cast; norm_num,
    show (((1 : ℕ) : ℚ) * (1 / 5000)) = 1 / 5000 by push_cast; norm_num,
    jsRound_val (1600 : ℚ) 1600 (by norm_num) (by norm_num),
    jsRound_val ((1 : ℚ) / 5000) 0 (by norm_num) (by norm_num)]
  show CompressState.mk DEFAULT_JPEG_QUALITY (1 / 5000) 1600 1 hugeDataUrl
    1575000 = _
  rw [show DEFAULT_JPEG_QUALITY = (85 : ℚ) / 100 from rfl]

theorem minScale_8m : compressMinScale 8000000 1 = 1 / 15625 := by
  unfold compressMinScale compressMaxEdge
  rw [show (max 8000000 1 : ℕ) = 8000000 from rfl]
  push_cast [MIN_ATTACHMENT_EDGE]
  norm_num

theorem guard_stuck : loopGuard (1 / 15625) stuckState :=
  ⟨show (1572864 : ℕ) < 1575000 by norm_num,
    Or.inr (show (1 : ℚ) / 15625 < 1 / 5000 by norm_num)⟩

theorem loop_stuck_none :
    ∀ fuel, compressLoop constRender 8000000 1 (1 / 15625) fuel stuckState =
      none := by
  intro fuel
  induction fuel with
  | zero => rfl
  | succ n ih =>
    rw [show compressLoop constRender 8000000 1 (1 / 15625) (n + 1) stuckState =
      if loopGuard (1 / 15625) stuckState then
        compressLoop constRender 8000000 1 (1 / 15625) n
          (adjustStep constRender 8000000 1 (1 / 15625) stuckState)
      else some stuckState from rfl,
      if_pos guard_stuck, adjust_stuck]
    exact ih

theorem guard_oversized (q s : ℚ) (hqs : MIN_JPEG_QUALITY < q ∨ (1 : ℚ) / 15625 < s)
    (w hgt : ℕ) : loopGuard (1 / 15625) ⟨q, s, w, hgt, hugeDataUrl, 1575000⟩ :=
  ⟨show (1572864 : ℕ) < 1575000 by norm_num, hqs⟩

theorem loop_init_none :
    ∀ fuel, compressLoop constRender 8000000 1 (1 / 15625) fuel
      ⟨85 / 100, 1 / 5000, 1600, 1, hugeDataUrl, 1575000⟩ = none := by
  have step1 := adjustStep_quality_const (1 / 15625) 8000000 1
    ⟨85 / 100, 1 / 5000, 1600, 1, hugeDataUrl, 1575000⟩
    (show MIN_JPEG_QUALITY < (85 : ℚ) / 100 by norm_num [MIN_JPEG_QUALITY])
    (75 / 100) q_step_85
  have step2 := adjustStep_quality_const (1 / 15625) 8000000 1
    ⟨75 / 100, 1 / 5000, 1600, 1, hugeDataUrl, 1575000⟩
    (show MIN_JPEG_QUALITY < (75 : ℚ) / 100 by norm_num [MIN_JPEG_QUALITY])
    (65 / 100) q_step_75
  have step3 := adjustStep_quality_const (1 / 15625) 8000000 1
    ⟨65 / 100, 1 / 5000, 1600, 1, hugeDataUrl, 1575000⟩
    (show MIN_JPEG_QUALITY < (65 : ℚ) / 100 by norm_num [MIN_JPEG_QUALITY])
    (55 / 100) q_step_65
  have unfold1 : ∀ (n : ℕ) (st : CompressState),
      compressLoop constRender 8000000 1 (1 / 15625) (n + 1) st =
        if loopGuard (1 / 15625) st then
          compressLoop constRender 8000000 1 (1 / 15625) n
            (adjustStep constRender 8000000 1 (1 / 15625) st)
        else some st := fun n st => rfl
  intro fuel
  match fuel with
  | 0 => rfl
  | 1 =>
    rw [unfold1, if_pos (guard_oversized _ _
      (Or.inl (by norm_num [MIN_JPEG_QUALITY])) _ _), step1]
    rfl
  | 2 =>
    rw [unfold1, if_pos (guard_oversized _ _
        (Or.inl (by norm_num [MIN_JPEG_QUALITY])) _ _), step1,
      unfold1, if_pos (guard_oversized _ _
        (Or.inl (by norm_num [MIN_JPEG_QUALITY])) _ _), step2]
    rfl
  | (n + 3) =>
    rw [unfold1, if_pos (guard_oversized _ _
        (Or.inl (by norm_num [MIN_JPEG_QUALITY])) _ _), step1,
      unfold1, if_pos (guard_oversized _ _
        (Or.inl (by norm_num [MIN_JPEG_QUALITY])) _ _), step2,
      unfold1, if_pos (guard_oversized _ _
        (Or.inl (by norm_num [MIN_JPEG_QUALITY])) _ _), step3]
    exact loop_stuck_none n

/-- Claim C2 as frozen is false: on an 8000000 × 1 image whose re-encode
step always produces a 1575000-byte artifact, the adjustment loop never
terminates — after the three quality steps the scale stalls (rounding
0.0002 · 0.85 to four decimals gives 0.0002 back, still above the floor
scale 0.000064), so the state repeats forever and no fuel suffices. -/
theorem compress_termination_counterexample :
    ¬ compressTerminates constRender (charsOf "big.png") 8000000 1 := by
  rintro ⟨fuel, r, hr⟩
  unfold compressImageFile at hr
  rw [if_neg (by norm_num), minScale_8m, init_state_8m,
    loop_init_none fuel] at hr
  cases hr

/-- Remaining quality steps above the floor, the quality part of the loop
measure. -/
def qSteps (q : ℚ) : ℕ := (Int.ceil ((q - MIN_JPEG_QUALITY) * 10)).toNat

/-- Remaining scale budget in 0.0001 units, the scale part of the loop
measure. -/
def sSteps (s : ℚ) : ℕ := (Int.ceil (s * 10 ^ 4)).toNat

/-- The loop measure: it strictly decreases on every productive iteration
once the scale floor is at least 0.0004. -/
def compressMeasure (st : CompressState) : ℕ := qSteps st.quality + sSteps st.scale

/-- The loop invariant: quality is a whole number of hundredths at or above
its floor, and the scale is at or above the floor scale. -/
def CompressInv (minScale : ℚ) (st : CompressState) : Prop :=
  (∃ k : ℤ, st.quality = (k : ℚ) / 100) ∧
    MIN_JPEG_QUALITY ≤ st.quality ∧ minScale ≤ st.scale

theorem adjustStep_fields_q (render : ℕ → ℕ → ℚ → List Char) (ow oh : ℕ)
    (ms : ℚ) (st : CompressState) (hq : MIN_JPEG_QUALITY < st.quality) :
    (adjustStep render ow oh ms st).quality =
      max MIN_JPEG_QUALITY (toFixedRound 2 (st.quality - 1 / 10)) ∧
    (adjustStep render ow oh ms st).scale = st.scale := by
  unfold adjustStep
  rw [if_pos hq]
  exact ⟨rfl, rfl⟩

theorem adjustStep_fields_s (render : ℕ → ℕ → ℚ → List Char) (ow oh : ℕ)
    (ms : ℚ) (st : CompressState) (hq : ¬ MIN_JPEG_QUALITY < st.quality)
    (hs : ms < st.scale) :
    (adjustStep render ow oh ms st).quality = st.quality ∧
    (adjustStep render ow oh ms st).scale =
      max ms (toFixedRound 4 (st.scale * DOWNSCALE_STEP)) := by
  unfold adjustStep
  rw [if_neg hq, if_pos hs]
  exact ⟨rfl, rfl⟩

theorem quality_step_exact (q : ℚ) (k : ℤ) (hk : q = (k : ℚ) / 100) :
    toFixedRound 2 (q - 1 / 10) = ((k - 10 : ℤ) : ℚ) / 100 := by
  rw [hk]
  exact toFixedRound_val 2 _ (k - 10) (by push_cast; linarith)
    (by push_cast; linarith)

theorem qSteps_dec (q : ℚ) (k : ℤ) (hk : q = (k : ℚ) / 100)
    (hq : MIN_JPEG_QUALITY < q) :
    qSteps (max MIN_JPEG_QUALITY (toFixedRound 2 (q - 1 / 10))) < qSteps q ∧
    MIN_JPEG_QUALITY ≤ max MIN_JPEG_QUALITY (toFixedRound 2 (q - 1 / 10)) ∧
    ∃ k' : ℤ, max MIN_JPEG_QUALITY (toFixedRound 2 (q - 1 / 10)) =
      (k' : ℚ) / 100 := by
  have hround := quality_step_exact q k hk
  have hc1 : 1 ≤ Int.ceil ((q - MIN_JPEG_QUALITY) * 10) := by
    apply Int.ceil_pos.mpr
    have : (0 : ℚ) < q - MIN_JPEG_QUALITY := by linarith
    linarith
  refine ⟨?_, le_max_left _ _, ?_⟩
  · by_cases hcap : toFixedRound 2 (q - 1 / 10) ≤ MIN_JPEG_QUALITY
    · rw [max_eq_left hcap]
      unfold qSteps
      rw [sub_self, zero_mul, Int.ceil_zero]
      omega
    · rw [max_eq_right (le_of_not_le hcap)]
      unfold qSteps
      rw [hround]
      have harg : (((k - 10 : ℤ) : ℚ) / 100 - MIN_JPEG_QUALITY) * 10 =
          (q - MIN_JPEG_QUALITY) * 10 - ((1 : ℤ) : ℚ) := by
        rw [hk]
        push_cast
        ring
      rw [harg, Int.ceil_sub_int]
      omega
  · by_cases hcap : toFixedRound 2 (q - 1 / 10) ≤ MIN_JPEG_QUALITY
    · exact ⟨55, by
        rw [max_eq_left hcap]
        norm_num [MIN_JPEG_QUALITY]⟩
    · exact ⟨k - 10, by rw [max_eq_right (le_of_not_le hcap), hround]⟩

theorem sSteps_dec (minScale s : ℚ) (hms : 1 / 2500 ≤ minScale)
    (hs : minScale ≤ s) :
    sSteps (toFixedRound 4 (s * DOWNSCALE_STEP)) < sSteps s := by
    have hx4 : (4 : ℚ) ≤ s * 10 ^ 4 := by
      have : (1 : ℚ) / 2500 ≤ s := le_trans hms hs
      nlinarith
    set m := Int.floor (s * DOWNSCALE_STEP * 10 ^ 4 + 1 / 2) with hm
    have ht : toFixedRound 4 (s * DOWNSCALE_STEP) = (m : ℚ) / 10 ^ 4 := rfl
    have hmlt : (m : ℚ) < s * 10 ^ 4 := by
      have hfl : (m : ℚ) ≤ s * DOWNSCALE_STEP * 10 ^ 4 + 1 / 2 :=
        Int.floor_le _
      have : s * DOWNSCALE_STEP * 10 ^ 4 + 1 / 2 < s * 10 ^ 4 := by
        rw [show DOWNSCALE_STEP = (85 : ℚ) / 100 from rfl]
        nlinarith
      linarith
    have hml : m < Int.ceil (s * 10 ^ 4) := by
      have h2 : (m : ℚ) < (Int.ceil (s * 10 ^ 4) : ℚ) :=
        lt_of_lt_of_le hmlt (Int.le_ceil _)
      exact_mod_cast h2
    have hcpos : 0 < Int.ceil (s * 10 ^ 4) := by
      apply Int.ceil_pos.mpr
      linarith
    unfold sSteps
    rw [ht, div_mul_cancel₀ _ (by norm_num : (10 : ℚ) ^ 4 ≠ 0),
      Int.ceil_intCast]
    omega

/-- With a floor scale of at least 0.0004 (longest edge at most 1280000
pixels), the adjustment loop reaches its exit within the measure's worth of
iterations, whatever the render step produces. -/
theorem compressLoop_term (render : ℕ → ℕ → ℚ → List Char) (ow oh : ℕ)
    (minScale : ℚ) (hms : 1 / 2500 ≤ minScale) :
    ∀ (fuel : ℕ) (st : CompressState), CompressInv minScale st →
      compressMeasure st + 2 ≤ fuel →
      ∃ r, compressLoop render ow oh minScale fuel st = some r := by
  have unfold1 : ∀ (n : ℕ) (st : CompressState),
      compressLoop render ow oh minScale (n + 1) st =
        if loopGuard minScale st then
          compressLoop render ow oh minScale n
            (adjustStep render ow oh minScale st)
        else some st := fun n st => rfl
  intro fuel
  induction fuel with
  | zero => intro st _ hμ; exact absurd hμ (by omega)
  | succ n ih =>
    intro st hInv hμ
    obtain ⟨⟨k, hk⟩, hqge, hsge⟩ := hInv
    rw [unfold1]
    by_cases hg : loopGuard minScale st
    · rw [if_pos hg]
      by_cases hq : MIN_JPEG_QUALITY < st.quality
      · obtain ⟨hq'e, hs'e⟩ := adjustStep_fields_q render ow oh minScale st hq
        obtain ⟨hdec, hge', k', hk'⟩ := qSteps_dec st.quality k hk hq
        apply ih
        · exact ⟨⟨k', by rw [hq'e, hk']⟩, by rw [hq'e]; exact hge',
            by rw [hs'e]; exact hsge⟩
        · unfold compressMeasure at hμ ⊢
          rw [hq'e, hs'e]
          omega
      · have hs2 : minScale < st.scale := by
          rcases hg.2 with h | h
          · exact absurd h hq
          · exact h
        obtain ⟨hq'e, hs'e⟩ :=
          adjustStep_fields_s render ow oh minScale st hq hs2
        by_cases hcap : toFixedRound 4 (st.scale * DOWNSCALE_STEP) ≤ minScale
        · have hscale' : (adjustStep render ow oh minScale st).scale =
              minScale := by
            rw [hs'e]
            exact max_eq_left hcap
          obtain ⟨n', rfl⟩ : ∃ n', n = n' + 1 := ⟨n - 1, by omega⟩
          rw [unfold1]
          rw [if_neg ?ng]
          · exact ⟨_, rfl⟩
          case ng =>
            intro hgd
            rcases hgd.2 with h | h
            · rw [hq'e] at h
              exact hq h
            · rw [hscale'] at h
              exact lt_irrefl _ h
        · push_neg at hcap
          have hscale' : (adjustStep render ow oh minScale st).scale =
              toFixedRound 4 (st.scale * DOWNSCALE_STEP) := by
            rw [hs'e]
            exact max_eq_right hcap.le
          have hdec := sSteps_dec minScale st.scale hms hsge
          apply ih
          · exact ⟨⟨k, by rw [hq'e, hk]⟩, by rw [hq'e]; exact hqge,
              by rw [hscale']; exact hcap.le⟩
          · unfold compressMeasure at hμ ⊢
            rw [hq'e, hscale']
            omega
    · rw [if_neg hg]
      exact ⟨st, rfl⟩

/-- Claim C2 (amended): for every image whose longest edge is at most
1280000 pixels, whatever sizes the render step produces, the adjustment loop
terminates (10100 iterations always suffice) and the call either returns an
artifact whose estimated size is at or under the 1.5 MB ceiling or fails
with the error naming the file and the ceiling in MB.  (The unrestricted
claim is false: see the stalling counterexample at an 8000000-pixel edge.) -/
theorem compressImageFile_terminates (render : ℕ → ℕ → ℚ → List Char)
    (fileName : List Char) (w h : ℕ) (hw : 1 ≤ w) (hh : 1 ≤ h)
    (hedge : max w h ≤ 1280000) :
    ∃ r, compressImageFile render fileName w h 10100 = some r ∧
      ((∃ a, r = Except.ok a ∧ a.size ≤ MAX_BASE64_ATTACHMENT_BYTES) ∨
        r = Except.error (compressFailureMessage fileName)) := by
  have hMEpos : (0 : ℚ) < compressMaxEdge w h := by
    unfold compressMaxEdge
    exact_mod_cast (by omega : 0 < max w h)
  have hMEle : compressMaxEdge w h ≤ 1280000 := by
    unfold compressMaxEdge
    exact_mod_cast hedge
  have hms : (1 : ℚ) / 2500 ≤ compressMinScale w h := by
    unfold compressMinScale
    apply le_min (by norm_num)
    rw [show ((MIN_ATTACHMENT_EDGE : ℕ) : ℚ) = 512 by
      norm_num [MIN_ATTACHMENT_EDGE]]
    rw [div_le_div_iff (by norm_num) hMEpos]
    linarith
  have hinit_pos : ¬ min 1 ((MAX_ATTACHMENT_EDGE : ℚ) / compressMaxEdge w h) ≤ 0 := by
    push_neg
    apply lt_min (by norm_num)
    apply div_pos _ hMEpos
    norm_num [MAX_ATTACHMENT_EDGE]
  have hinitval : compressInitialScale w h =
      min 1 ((MAX_ATTACHMENT_EDGE : ℚ) / compressMaxEdge w h) := by
    unfold compressInitialScale
    rw [if_neg hinit_pos]
  have hscale0 : compressMinScale w h ≤ compressInitialScale w h := by
    rw [hinitval]
    unfold compressMinScale
    apply min_le_min le_rfl
    exact (div_le_div_right hMEpos).mpr
      (by norm_num [MIN_ATTACHMENT_EDGE, MAX_ATTACHMENT_EDGE])
  have hinv : CompressInv (compressMinScale w h)
      (compressInitState render w h) := by
    refine ⟨⟨85, ?_⟩, ?_, ?_⟩
    · show DEFAULT_JPEG_QUALITY = ((85 : ℤ) : ℚ) / 100
      norm_num [DEFAULT_JPEG_QUALITY]
    · show MIN_JPEG_QUALITY ≤ DEFAULT_JPEG_QUALITY
      norm_num [MIN_JPEG_QUALITY, DEFAULT_JPEG_QUALITY]
    · show compressMinScale w h ≤ compressInitialScale w h
      exact hscale0
  have hq3 : qSteps (compressInitState render w h).quality = 3 := by
    show qSteps DEFAULT_JPEG_QUALITY = 3
    unfold qSteps
    rw [show (DEFAULT_JPEG_QUALITY - MIN_JPEG_QUALITY) * 10 = ((3 : ℤ) : ℚ) by
      norm_num [DEFAULT_JPEG_QUALITY, MIN_JPEG_QUALITY], Int.ceil_intCast]
    rfl
  have hs1 : sSteps (compressInitState render w h).scale ≤ 10000 := by
    show sSteps (compressInitialScale w h) ≤ 10000
    have hle1 : compressInitialScale w h ≤ 1 := by
      rw [hinitval]
      exact min_le_left _ _
    unfold sSteps
    have hcle : Int.ceil (compressInitialScale w h * 10 ^ 4) ≤ 10000 := by
      apply Int.ceil_le.mpr
      push_cast
      nlinarith
    omega
  have hμ : compressMeasure (compressInitState render w h) + 2 ≤ 10100 := by
    unfold compressMeasure
    omega
  obtain ⟨stF, hF⟩ := compressLoop_term render w h (compressMinScale w h) hms
    10100 (compressInitState render w h) hinv hμ
  unfold compressImageFile
  rw [if_neg (by omega), hF]
  refine ⟨_, rfl, ?_⟩
  by_cases hs : MAX_BASE64_ATTACHMENT_BYTES < stF.size
  · right
    rw [if_pos hs]
  · left
    exact ⟨_, by rw [if_neg hs], not_lt.mp hs⟩

/-- Witness for C2 (amended) at a 1 × 1 image and a render step that always
produces an empty payload: the call finishes within the stated fuel. -/
theorem compressImageFile_terminates_witness :
    ∃ r, compressImageFile (fun _ _ _ => []) (charsOf "tiny.png") 1 1 10100 =
      some r ∧
      ((∃ a, r = Except.ok a ∧ a.size ≤ MAX_BASE64_ATTACHMENT_BYTES) ∨
        r = Except.error (compressFailureMessage (charsOf "tiny.png"))) :=
  compressImageFile_terminates (fun _ _ _ => []) (charsOf "tiny.png") 1 1
    (by norm_num) (by norm_num) (by norm_num)
